import Mathlib

/-!
Verification development for the oasysdb vector-collection core.

The repository ships only the Python test-suite and example under `src/py`;
the collection/index engine itself is absent from `src/`.  Following the
specification (`spec.md`), every definition below is therefore a model of the
missing core, written from the spec's words; doc comments say `Modelled from
the spec:` and name the part being modelled.

Numeric note: the spec computes distances in IEEE-754 `f32` with square
roots.  Exact machine floats are not shallowly embeddable here, so vector
components and distances are exact rationals and each metric is replaced by
an order-isomorphic rational reparametrization (squared euclidean; cosine
with the similarity `s` mapped through the strictly monotone `s * |s|`).
Every claim below is an ordering / equality / filtering statement, invariant
under this reparametrization.
-/

namespace Oasys

/-- Modelled from the spec: error kinds of §7 (source error enum is not in
`src/`). -/
inductive Err where
  | InvalidConfig
  | UnknownMetric
  | InvalidVectorDimension
  | UnknownID
  | Empty
  | DimensionMismatch
  | IncompatibleVersion
  | CorruptBlob
  | IoError
deriving DecidableEq, Repr

/-- Modelled from the spec: the error message carried by each error kind;
the test-suite asserts that the invalid-dimension message contains the text
"invalid vector dimension". -/
def Err.message : Err → String
  | .InvalidConfig => "invalid config"
  | .UnknownMetric => "unknown metric"
  | .InvalidVectorDimension => "invalid vector dimension"
  | .UnknownID => "unknown id"
  | .Empty => "empty collection"
  | .DimensionMismatch => "dimension mismatch"
  | .IncompatibleVersion => "incompatible version"
  | .CorruptBlob => "corrupt blob"
  | .IoError => "io error"

/-- Modelled from the spec: VectorID, "an opaque 32-bit unsigned identifier".
Widths never overflow in the model (IDs are a monotone counter), so `Nat`
carries the value. -/
structure VectorID where
  id : Nat
deriving DecidableEq, Repr

/-- Modelled from the spec: "ID 0 is reserved as invalid/sentinel",
`VectorID.is_valid() → bool` (invalid iff sentinel). -/
def VectorID.is_valid (v : VectorID) : Bool := v.id != 0

/-- Modelled from the spec: a Vector is an ordered sequence of float
components; components are exact rationals here (see the file header). -/
abbrev Vec := List ℚ

/-- Modelled from the spec: Payload, "an opaque blob attached to a Record";
an uninterpreted byte list. -/
abbrev Payload := List Nat

/-- Modelled from the spec: Record, the pair (Vector, Payload). -/
structure Record where
  vector : Vec
  data : Payload
deriving DecidableEq, Repr

/-- Modelled from the spec: the recognized distance metrics,
`distance ∈ {euclidean, cosine}`. -/
inductive Metric where
  | euclidean
  | cosine
deriving DecidableEq, Repr

/-- Dot product of two component lists. -/
def dot (a b : Vec) : ℚ := (List.zipWith (· * ·) a b).sum

/-- Squared euclidean norm. -/
def sqNorm (a : Vec) : ℚ := dot a a

/-- Modelled from the spec: euclidean distance "√Σ(aᵢ − bᵢ)², smaller is
closer", represented by the order-isomorphic squared form Σ(aᵢ − bᵢ)². -/
def euclideanDist (a b : Vec) : ℚ := sqNorm (List.zipWith (· - ·) a b)

/-- Modelled from the spec: cosine distance "1 − (a·b)/(‖a‖·‖b‖); when either
vector has zero norm, distance is 1".  The similarity `s = x/√p` is
represented by the order-isomorphic `s·|s| = x·|x|/p`, so the distance is
`1 − x·|x|/(‖a‖²·‖b‖²)`, and 1 when either squared norm is zero. -/
def cosineDist (a b : Vec) : ℚ :=
  let x := dot a b
  let p := sqNorm a * sqNorm b
  if p = 0 then 1 else 1 - x * (if x < 0 then -x else x) / p

/-- Modelled from the spec: pairwise distance under a named metric (§4.A). -/
def Metric.dist : Metric → Vec → Vec → ℚ
  | .euclidean, a, b => euclideanDist a b
  | .cosine, a, b => cosineDist a b

/-- Modelled from the spec: parsing a distance name; "an unknown distance
name is rejected with `UnknownMetric`". -/
def Metric.parse : String → Except Err Metric
  | "euclidean" => .ok .euclidean
  | "cosine" => .ok .cosine
  | _ => .error .UnknownMetric

/-- Modelled from the spec: Config with its §3 fields.  `ef_construction`
and `ef_search` are positive integers, `ml` a positive real (rational in the
model), `distance` the selected metric. -/
structure Config where
  ef_construction : Nat
  ef_search : Nat
  ml : ℚ
  distance : Metric
deriving DecidableEq, Repr

/-- Modelled from the spec: `Config.create_default()`: ef_construction 40,
ef_search 15, ml 0.2885, distance euclidean. -/
def Config.create_default : Config :=
  { ef_construction := 40, ef_search := 15, ml := 2885 / 10000, distance := .euclidean }

/-- Modelled from the spec: `Config.default()` is a synonym of
`Config.create_default()`. -/
def Config.default : Config := Config.create_default

/-- Modelled from the spec: M, the target neighbors per node per layer
(default 16). -/
def Mparam : Nat := 16

/-- Modelled from the spec: M_max0, the layer-0 degree cap (default 2·M). -/
def Mmax0 : Nat := 2 * Mparam

/-- Ranking order on (distance, id) pairs: ascending distance, ties broken
by VectorID ascending (spec §4.E and the tie-breaking design note). -/
def rankLE (a b : ℚ × Nat) : Prop := a.1 < b.1 ∨ (a.1 = b.1 ∧ a.2 ≤ b.2)

instance : DecidableRel rankLE := fun a b => by
  unfold rankLE; infer_instance

instance : IsTotal (ℚ × Nat) rankLE where
  total a b := by
    rcases lt_trichotomy a.1 b.1 with h | h | h
    · exact Or.inl (Or.inl h)
    · rcases Nat.le_total a.2 b.2 with h2 | h2
      · exact Or.inl (Or.inr ⟨h, h2⟩)
      · exact Or.inr (Or.inr ⟨h.symm, h2⟩)
    · exact Or.inr (Or.inl h)

instance : IsTrans (ℚ × Nat) rankLE where
  trans a b c hab hbc := by
    rcases hab with h1 | ⟨e1, l1⟩
    · rcases hbc with h2 | ⟨e2, _⟩
      · exact Or.inl (h1.trans h2)
      · exact Or.inl (e2 ▸ h1)
    · rcases hbc with h2 | ⟨e2, l2⟩
      · exact Or.inl (e1 ▸ h2)
      · exact Or.inr ⟨e1.trans e2, l1.trans l2⟩

instance : IsAntisymm (ℚ × Nat) rankLE where
  antisymm a b hab hba := by
    rcases hab with h1 | ⟨e1, l1⟩
    · rcases hba with h2 | ⟨e2, _⟩
      · exact absurd (h1.trans h2) (lt_irrefl _)
      · exact absurd (e2 ▸ h1) (lt_irrefl _)
    · rcases hba with h2 | ⟨e2, l2⟩
      · exact absurd (e1 ▸ h2) (lt_irrefl _)
      · exact Prod.ext e1 (Nat.le_antisymm l1 l2)

/-- Modelled from the spec: one layer of the proximity graph, "a directed
graph whose nodes are a subset of collection IDs and whose edges are
bounded-length neighbor lists", stored per the arena+index design note as an
ordered adjacency list of `(node_id, neighbor_ids)`. -/
structure Layer where
  adj : List (Nat × List Nat)
deriving DecidableEq, Repr

instance : Inhabited Layer := ⟨⟨[]⟩⟩

/-- The node IDs present in a layer, in storage order. -/
def Layer.nodes (L : Layer) : List Nat := L.adj.map Prod.fst

/-- The neighbor list of a node in a layer (empty when absent). -/
def Layer.nbrs (L : Layer) (i : Nat) : List Nat := (L.adj.lookup i).getD []

/-- Add a node with an empty neighbor list (no-op when present). -/
def Layer.addNode (L : Layer) (i : Nat) : Layer :=
  if i ∈ L.nodes then L else ⟨L.adj ++ [(i, [])]⟩

/-- Replace the neighbor list of a node (no-op when absent). -/
def Layer.setNbrs (L : Layer) (i : Nat) (ns : List Nat) : Layer :=
  ⟨L.adj.map fun p => if p.1 = i then (p.1, ns) else p⟩

/-- Append `j` to the neighbor list of `i` when not already present. -/
def Layer.addEdge (L : Layer) (i j : Nat) : Layer :=
  ⟨L.adj.map fun p => if p.1 = i ∧ j ∉ p.2 then (p.1, p.2 ++ [j]) else p⟩

/-- Remove node `i` from the layer and purge it from every neighbor list. -/
def Layer.removeNode (L : Layer) (i : Nat) : Layer :=
  ⟨(L.adj.filter fun p => p.1 ≠ i).map fun p => (p.1, p.2.filter (· ≠ i))⟩

/-- Modelled from the spec: the multi-layer proximity graph, "a stack of
layers" (index 0 is layer 0) with "a single entry point ID". -/
structure Graph where
  layers : List Layer
  entry : Option Nat
deriving DecidableEq, Repr

/-- The empty proximity graph. -/
def Graph.emptyGraph : Graph := ⟨[], none⟩

/-- Modelled from the spec: greedy single-beam descent within one layer —
"at each step move to the neighbor strictly closer to the query than the
current node; terminate when no neighbor improves"; ties among closer
neighbors are broken by smaller VectorID.  `fd` measures distance to the
query; fuel bounds the walk. -/
def Layer.greedy (L : Layer) (fd : Nat → ℚ) : Nat → Nat → Nat
  | 0, cur => cur
  | fuel + 1, cur =>
    match ((L.nbrs cur).map fun n => (fd n, n)).insertionSort rankLE with
    | [] => cur
    | m :: _ => if m.1 < fd cur then L.greedy fd fuel m.2 else cur

/-- State of the bounded beam search: candidates still to expand and the
best-so-far set, both kept ascending by `rankLE`, plus the visited set. -/
structure BeamState where
  cands : List (ℚ × Nat)
  best : List (ℚ × Nat)
  visited : List Nat
deriving DecidableEq, Repr

/-- Expansion of one popped candidate: each unvisited neighbor is pushed
into both the candidate set and the best-set (evicting beyond `ef`), and
marked visited. -/
def beamExpand (fd : Nat → ℚ) (ef : Nat) (s : BeamState) (ns : List Nat) : BeamState :=
  ns.foldl
    (fun st n =>
      if n ∈ st.visited then st
      else
        { cands := List.orderedInsert rankLE (fd n, n) st.cands,
          best := (List.orderedInsert rankLE (fd n, n) st.best).take ef,
          visited := n :: st.visited })
    s

/-- Modelled from the spec: the bounded beam-search loop of §4.D — "pops the
closest candidate; if its distance exceeds the worst element of the best-set
and the best-set is full, terminate; otherwise expand its neighbors in the
current layer, skipping visited nodes". -/
def beamLoop (L : Layer) (fd : Nat → ℚ) (ef : Nat) : Nat → BeamState → BeamState
  | 0, s => s
  | fuel + 1, s =>
    match s.cands with
    | [] => s
    | c :: rest =>
      if ef ≤ s.best.length ∧ ∃ w ∈ s.best.getLast?, w.1 < c.1 then s
      else beamLoop L fd ef fuel (beamExpand fd ef { s with cands := rest } (L.nbrs c.2))

/-- Modelled from the spec: a layer's beam search of width `ef` seeded at
`ep`, returning the ranked best-set. -/
def Layer.beamSearch (L : Layer) (fd : Nat → ℚ) (ef : Nat) (ep : Nat) : List (ℚ × Nat) :=
  (beamLoop L fd ef (L.adj.length + 1)
      { cands := [(fd ep, ep)], best := [(fd ep, ep)].take ef, visited := [ep] }).best

/-- Modelled from the spec: heuristic neighbor selection — "repeatedly take
the closest remaining candidate c and add it to S unless some s ∈ S has
distance(c, s) < distance(c, insertingNode)", stopping at `m`; the input is
already sorted ascending (ties by smaller VectorID).  `dv` is the pairwise
distance between stored nodes; `c.1` is distance(c, insertingNode). -/
def heuristicGo (dv : Nat → Nat → ℚ) (m : Nat) : List (ℚ × Nat) → List (ℚ × Nat) → List (ℚ × Nat)
  | [], S => S.reverse
  | c :: rest, S =>
    if m ≤ S.length then S.reverse
    else if S.any fun s => dv c.2 s.2 < c.1 then heuristicGo dv m rest S
    else heuristicGo dv m rest (c :: S)

/-- Heuristic selection from a candidate set, sorting it first. -/
def heuristicSelect (dv : Nat → Nat → ℚ) (m : Nat) (C : List (ℚ × Nat)) : List (ℚ × Nat) :=
  heuristicGo dv m (C.insertionSort rankLE) []

/-- The degree cap of a layer: `M_max0` on layer 0, `M` above (§3). -/
def layerCap (l : Nat) : Nat := if l = 0 then Mmax0 else Mparam

/-- The reverse-edge step of §4.D step 6: append the new node to a selected
neighbor's list; when the resulting degree exceeds the cap, reapply
heuristic selection over that neighbor's full edge set. -/
def backEdgeStep (dv : Nat → Nat → ℚ) (cap nid : Nat) (Lacc : Layer) (s : Nat) : Layer :=
  let Ladd := Lacc.addEdge s nid
  if cap < (Ladd.nbrs s).length then
    Ladd.setNbrs s
      ((heuristicSelect dv cap ((Ladd.nbrs s).map fun j => (dv s j, j))).map Prod.snd)
  else Ladd

/-- One layer step of the insertion procedure (spec §4.D steps 4–6): beam
search of width `efc` seeded at `ep` gives candidates `C`; heuristic
selection capped by the layer cap picks the neighbors of the new node;
bidirectional edges are inserted and any over-cap neighbor is re-selected
over its full edge set; the closest candidate seeds the next layer down. -/
def insertAtLayer (fd : Nat → ℚ) (dv : Nat → Nat → ℚ) (efc : Nat) (nid : Nat)
    (st : List Layer × Nat) (l : Nat) : List Layer × Nat :=
  let layers := st.1
  let ep := st.2
  let L := layers.getD l default
  let C := L.beamSearch fd efc ep
  let cap := layerCap l
  let selIds := (heuristicSelect dv cap C).map Prod.snd
  let L1 := (L.addNode nid).setNbrs nid selIds
  let L2 := selIds.foldl (backEdgeStep dv cap nid) L1
  (layers.set l L2, (C.head?.map Prod.snd).getD ep)

/-- The greedy descent of §4.D step 3: from the top layer down to lvl+1,
single-beam greedy search, each layer seeding the next. -/
def greedyDescent (fd : Nat → ℚ) (layers : List Layer) (lvl Ltop ep0 : Nat) : Nat :=
  ((List.range' (lvl + 1) (Ltop - lvl)).reverse).foldl
    (fun ep l => (layers.getD l default).greedy fd (layers.getD l default).adj.length ep)
    ep0

/-- Add the new node (with an empty neighbor list) to the freshly created
layers above the old top. -/
def extendNode (nid : Nat) (idxs : List Nat) (ls : List Layer) : List Layer :=
  idxs.foldl (fun acc l => acc.set l ((acc.getD l default).addNode nid)) ls

/-- Modelled from the spec: the full insertion procedure of §4.D.  `lvl` is
the drawn top level of the new node; on an empty graph the node seeds layers
0..lvl and becomes the entry point; otherwise greedy descent runs from the
top layer down to lvl+1, beam insertion from min(lvl, Ltop) down to 0, the
node is added to any newly created layers above, and it becomes the entry
point when lvl exceeds the old top. -/
def Graph.insert (g : Graph) (fd : Nat → ℚ) (dv : Nat → Nat → ℚ) (efc : Nat)
    (nid : Nat) (lvl : Nat) : Graph :=
  match g.entry with
  | none => ⟨List.replicate (lvl + 1) ⟨[(nid, [])]⟩, some nid⟩
  | some ep0 =>
    let Ltop := g.layers.length - 1
    let ep1 := greedyDescent fd g.layers lvl Ltop ep0
    let layers1 := g.layers ++ List.replicate (lvl + 1 - g.layers.length) default
    let start := min lvl Ltop
    let st := ((List.range (start + 1)).reverse).foldl
      (insertAtLayer fd dv efc nid) (layers1, ep1)
    let layers2 :=
      if Ltop < lvl then extendNode nid (List.range' (Ltop + 1) (lvl - Ltop)) st.1
      else st.1
    ⟨layers2, if Ltop < lvl then some nid else g.entry⟩

/-- Repair threshold below which a neighbor is re-linked after a delete
(spec: "degree now below a repair threshold (e.g. < M/2)"). -/
def repairThreshold : Nat := Mparam / 2

/-- Modelled from the spec: the delete procedure of §4.D — remove the node
from every layer, purge it from every neighbor list, re-link former
neighbors whose degree fell below the repair threshold via beam search and
heuristic selection up to M, promote the lowest ID of the highest non-empty
layer when the entry point was deleted, and drop empty layers from the
top. -/
def Graph.remove (g : Graph) (dv : Nat → Nat → ℚ) (efc : Nat) (nid : Nat) : Graph :=
  let layers1 := g.layers.map fun L =>
    let former := L.nbrs nid
    let L1 := L.removeNode nid
    former.foldl
      (fun Lacc n =>
        if (Lacc.nbrs n).length < repairThreshold ∧ n ∈ Lacc.nodes then
          let C := (Lacc.beamSearch (fun j => dv n j) efc n).filter fun c => c.2 ≠ n
          Lacc.setNbrs n ((heuristicSelect dv Mparam C).map Prod.snd)
        else Lacc)
      L1
  let layers2 := (layers1.reverse.dropWhile fun L => L.adj.isEmpty).reverse
  if layers2.isEmpty then ⟨[], none⟩
  else
    ⟨layers2,
      if g.entry = some nid then layers2.getLast?.bind fun L => L.nodes.min?
      else g.entry⟩

/-- Modelled from the spec: a ranked search result,
`{id: VectorID, distance: f32}` (§4.E). -/
structure SearchResult where
  id : VectorID
  distance : ℚ
deriving DecidableEq, Repr

/-- Modelled from the spec: the Collection of §3 — the record map (kept in
insertion key order for deterministic serialization), the proximity graph,
the config, the once-settable dimension, the optional relevancy cutoff, and
the monotone next-ID counter.  `levels` is the deterministically-seedable
PRNG stream of §9 from which each insert draws its top level. -/
structure Collection where
  records : List (Nat × Record)
  graph : Graph
  config : Config
  dimension : Option Nat
  relevancy : Option ℚ
  counter : Nat
  levels : List Nat
deriving DecidableEq, Repr

/-- Modelled from the spec: `Collection(config)`, created empty; the next-ID
counter starts at 0. -/
def Collection.emptyCollection (cfg : Config) : Collection :=
  { records := [], graph := Graph.emptyGraph, config := cfg, dimension := none,
    relevancy := none, counter := 0, levels := [] }

/-- The stored vector of an ID (empty when absent). -/
def Collection.vecOf (c : Collection) (i : Nat) : Vec :=
  ((c.records.lookup i).map Record.vector).getD []

/-- Distance from a query to a stored node under the collection's metric. -/
def Collection.fd (c : Collection) (q : Vec) (i : Nat) : ℚ :=
  c.config.distance.dist q (c.vecOf i)

/-- Pairwise distance between two stored nodes under the collection's
metric. -/
def Collection.dv (c : Collection) (i j : Nat) : ℚ :=
  c.config.distance.dist (c.vecOf i) (c.vecOf j)

/-- Modelled from the spec: `contains(id) → bool`. -/
def Collection.containsId (c : Collection) (i : VectorID) : Bool :=
  (c.records.lookup i.id).isSome

/-- Modelled from the spec: `get(id) → Record?`, constant-time lookup. -/
def Collection.get (c : Collection) (i : VectorID) : Option Record :=
  c.records.lookup i.id

/-- Modelled from the spec: `len()`. -/
def Collection.len (c : Collection) : Nat := c.records.length

/-- Modelled from the spec: `is_empty()`. -/
def Collection.isEmpty (c : Collection) : Bool := c.records.isEmpty

/-- Modelled from the spec: `list()`, a snapshot copy of the mapping
VectorID → Record. -/
def Collection.list (c : Collection) : List (VectorID × Record) :=
  c.records.map fun p => (⟨p.1⟩, p.2)

/-- The unvalidated part of the collection insert: ID allocation, record-map
insertion, index insert, rollback on index failure. -/
def Collection.insertGo
    (idx : Collection → Nat → Nat → Except Err Graph)
    (c : Collection) (r : Record) : Except (Err × Collection) (VectorID × Collection) :=
  let nid := c.counter
  let lvl := c.levels.headD 0
  let c1 := { c with counter := c.counter + 1, levels := c.levels.tail }
  let c2 := { c1 with records := c1.records ++ [(nid, r)] }
  match idx c2 nid lvl with
  | .error e => .error (e, { c2 with records := c1.records })
  | .ok g => .ok (⟨nid⟩, { c2 with graph := g })

/-- Modelled from the spec: the collection-level insert of §4.E, generic in
the index-insert step `idx` so that the rollback clause ("on index failure
the record map is rolled back") is stated for every possible index-layer
failure.  It validates the dimension (setting it when unset), allocates the
next ID, bumps the counter *before* the index insert (§5), inserts into the
record map, then calls `idx`; on index failure the record-map insertion is
rolled back and the error is returned with the rolled-back state. -/
def Collection.insertCore
    (idx : Collection → Nat → Nat → Except Err Graph)
    (c : Collection) (r : Record) : Except (Err × Collection) (VectorID × Collection) :=
  let d := r.vector.length
  match c.dimension with
  | some dim =>
    if d ≠ dim then .error (.InvalidVectorDimension, c)
    else Collection.insertGo idx c r
  | none => Collection.insertGo idx { c with dimension := some d } r

/-- The proximity-graph index step used by the real insert: the total §4.D
insertion procedure, which never fails on a dimension-validated record. -/
def Collection.graphIdx (c : Collection) (nid lvl : Nat) : Except Err Graph :=
  .ok (c.graph.insert (c.fd (c.vecOf nid)) c.dv c.config.ef_construction nid lvl)

/-- Modelled from the spec: `insert(record) → VectorID` (§4.E). -/
def Collection.insert (c : Collection) (r : Record) :
    Except (Err × Collection) (VectorID × Collection) :=
  c.insertCore Collection.graphIdx r

/-- Modelled from the spec: `insert_many(records)` — vectorized insert with
per-record semantics; the first failure aborts the batch with the
already-inserted prefix committed. -/
def Collection.insertMany (c : Collection) : List Record → Except (Err × Collection) Collection
  | [] => .ok c
  | r :: rs =>
    match c.insert r with
    | .error e => .error e
    | .ok (_, c1) => c1.insertMany rs

/-- Modelled from the spec: `Collection.from_records(config, records)` —
build a collection from a record batch, starting empty. -/
def Collection.fromRecords (cfg : Config) (rs : List Record) :
    Except (Err × Collection) Collection :=
  (Collection.emptyCollection cfg).insertMany rs

/-- Modelled from the spec: `delete(id)` — removes from record map and
index, fails with `UnknownID` when absent; the ID counter is not touched. -/
def Collection.delete (c : Collection) (i : VectorID) : Except Err Collection :=
  if c.containsId i then
    .ok { c with records := c.records.filter fun p => p.1 ≠ i.id,
                 graph := c.graph.remove c.dv c.config.ef_construction i.id }
  else .error .UnknownID

/-- Modelled from the spec: `update(id, record)` — "equivalent to remove +
insert-with-same-id", preserving the ID; fails with `UnknownID` when
absent.  The record map is updated in place and the node is re-linked in the
graph under its old ID at a freshly drawn level. -/
def Collection.update (c : Collection) (i : VectorID) (r : Record) : Except Err Collection :=
  if c.containsId i then
    let recs := c.records.map fun p => if p.1 = i.id then (p.1, r) else p
    let g1 := c.graph.remove c.dv c.config.ef_construction i.id
    let c1 := { c with records := recs, graph := g1, levels := c.levels.tail }
    .ok { c1 with
          graph := g1.insert (c1.fd r.vector) c1.dv c1.config.ef_construction i.id
            (c.levels.headD 0) }
  else .error .UnknownID

/-- Modelled from the spec: `set dimension(d)`, allowed only when empty. -/
def Collection.setDimension (c : Collection) (d : Nat) : Except Err Collection :=
  if c.isEmpty then .ok { c with dimension := some d }
  else .error .InvalidVectorDimension

/-- Modelled from the spec: the §4.D query procedure — greedy descent from
the entry point down through layer 1, then a single beam search at layer 0
with width max(ef_search, k), returning the top k closest as ranked
results. -/
def Collection.rawSearch (c : Collection) (q : Vec) (k : Nat) : List SearchResult :=
  match c.graph.entry with
  | none => []
  | some ep0 =>
    let fd := c.fd q
    let upper := (List.range' 1 (c.graph.layers.length - 1)).reverse
    let ep1 := upper.foldl
      (fun ep l => (c.graph.layers.getD l default).greedy fd
        (c.graph.layers.getD l default).adj.length ep)
      ep0
    let L0 := c.graph.layers.getD 0 default
    let res := L0.beamSearch fd (max c.config.ef_search k) ep1
    (res.take k).map fun p => ⟨⟨p.2⟩, p.1⟩

/-- Modelled from the spec: `search(query, n)` — ANN search applying the
relevancy cutoff "by truncating results whose distance exceeds it (if
set)". -/
def Collection.search (c : Collection) (q : Vec) (k : Nat) : List SearchResult :=
  match c.relevancy with
  | none => c.rawSearch q k
  | some rel => (c.rawSearch q k).filter fun s => s.distance ≤ rel

/-- Modelled from the spec: `true_search(query, n)` — computes the distance
from the query to every live record and returns the top k, ranked. -/
def Collection.trueSearch (c : Collection) (q : Vec) (k : Nat) : List SearchResult :=
  let ranked := (c.records.map fun p => (c.fd q p.1, p.1)).insertionSort rankLE
  (ranked.take k).map fun p => ⟨⟨p.2⟩, p.1⟩

/-- Modelled from the spec: the collection blob of §6 — header (magic,
version, dimension, metric, config — the entry point and relevancy ride in
the header so that query determinism survives reload), ID counter, record
map entries, then per-layer adjacency as an ordered sequence of
`(node_id, neighbor_ids)`.  Byte-level float encoding is abstracted (see the
file header); the blob keeps the structural fields the layout lists. -/
structure CollectionBlob where
  magic : Nat
  version : Nat
  dimension : Option Nat
  config : Config
  relevancy : Option ℚ
  entry : Option Nat
  counter : Nat
  records : List (Nat × Record)
  layers : List (List (Nat × List Nat))
deriving DecidableEq, Repr

/-- The magic number of the on-disk header. -/
def blobMagic : Nat := 0x6f617379

/-- The current blob format version. -/
def blobVersion : Nat := 1

/-- Modelled from the spec: serialize a collection to its named blob,
preserving neighbor-list ordering. -/
def Collection.serialize (c : Collection) : CollectionBlob :=
  { magic := blobMagic, version := blobVersion, dimension := c.dimension,
    config := c.config, relevancy := c.relevancy, entry := c.graph.entry,
    counter := c.counter, records := c.records,
    layers := c.graph.layers.map Layer.adj }

/-- Modelled from the spec: deserialize a blob; "version mismatches fail
`IncompatibleVersion`", a bad magic is a `CorruptBlob`.  The PRNG stream is
not part of the on-disk layout and restarts empty. -/
def Collection.deserialize (b : CollectionBlob) : Except Err Collection :=
  if b.magic ≠ blobMagic then .error .CorruptBlob
  else if b.version ≠ blobVersion then .error .IncompatibleVersion
  else
    .ok { records := b.records,
          graph := ⟨b.layers.map Layer.mk, b.entry⟩,
          config := b.config, dimension := b.dimension,
          relevancy := b.relevancy, counter := b.counter, levels := [] }

/-- Modelled from the spec: the directory-level Database, a map from
collection name to serialized collection blob. -/
structure Database where
  store : List (String × CollectionBlob)
deriving DecidableEq, Repr

/-- Modelled from the spec: `Database.new(path)` opens an empty store. -/
def Database.newDb : Database := ⟨[]⟩

/-- Modelled from the spec: `save_collection(name, collection)` — replaces
any blob of that name. -/
def Database.save_collection (db : Database) (name : String) (c : Collection) : Database :=
  ⟨(name, c.serialize) :: db.store.filter fun p => p.1 ≠ name⟩

/-- Modelled from the spec: `get_collection(name)` — deserializes the named
blob, failing with `UnknownID` when the name is absent. -/
def Database.get_collection (db : Database) (name : String) : Except Err Collection :=
  match db.store.lookup name with
  | none => .error .UnknownID
  | some b => Collection.deserialize b

/-- Modelled from the spec: `delete_collection(name)`. -/
def Database.delete_collection (db : Database) (name : String) : Database :=
  ⟨db.store.filter fun p => p.1 ≠ name⟩

/-- Modelled from the spec: `Database.len()`. -/
def Database.len (db : Database) : Nat := db.store.length

/-- Modelled from the spec: `Database.is_empty()`. -/
def Database.isEmpty (db : Database) : Bool := db.store.isEmpty

/-! ## Operation sequences

A small operation language over collections, used to state lifetime
properties such as "a deleted ID is never handed out again". -/

/-- A mutating collection operation. -/
inductive Op where
  | ins (r : Record)
  | del (i : VectorID)
  | upd (i : VectorID) (r : Record)
deriving Repr

/-- Apply one operation, keeping the state an operation leaves behind on
failure (inserts report their post-rollback state; delete and update leave
the collection untouched when they fail). -/
def Collection.applyOp (c : Collection) : Op → Collection
  | .ins r =>
    match c.insert r with
    | .ok (_, c') => c'
    | .error (_, c') => c'
  | .del i => (c.delete i).toOption.getD c
  | .upd i r => (c.update i r).toOption.getD c

/-- Apply a sequence of operations in order. -/
def Collection.applyOps (c : Collection) (ops : List Op) : Collection :=
  ops.foldl Collection.applyOp c

/-- The §3 counter invariant: every live ID is below the next-ID counter. -/
def Collection.idsBelow (c : Collection) : Prop :=
  ∀ p ∈ c.records, p.1 < c.counter

instance (c : Collection) : Decidable c.idsBelow := by
  unfold Collection.idsBelow; infer_instance

/-! ## Helper lemmas -/

theorem insertGo_error_records (idx : Collection → Nat → Nat → Except Err Graph)
    (c : Collection) (r : Record) (e : Err) (c' : Collection)
    (h : Collection.insertGo idx c r = .error (e, c')) :
    c'.records = c.records ∧ c'.counter = c.counter + 1 := by
  simp only [Collection.insertGo] at h
  split at h
  · simp only [Except.error.injEq, Prod.mk.injEq] at h
    rw [← h.2]
    exact ⟨rfl, rfl⟩
  · simp at h

theorem insertGo_ok (idx : Collection → Nat → Nat → Except Err Graph)
    (c : Collection) (r : Record) (v : VectorID) (c' : Collection)
    (h : Collection.insertGo idx c r = .ok (v, c')) :
    v.id = c.counter ∧ c'.counter = c.counter + 1
      ∧ c'.records = c.records ++ [(c.counter, r)] := by
  simp only [Collection.insertGo] at h
  split at h
  · simp at h
  · simp only [Except.ok.injEq, Prod.mk.injEq] at h
    rw [← h.1, ← h.2]
    exact ⟨rfl, rfl, rfl⟩

theorem insertCore_error_state (idx : Collection → Nat → Nat → Except Err Graph)
    (c : Collection) (r : Record) (e : Err) (c' : Collection)
    (h : Collection.insertCore idx c r = .error (e, c')) :
    c'.records = c.records ∧ c.counter ≤ c'.counter := by
  unfold Collection.insertCore at h
  rcases hdim : c.dimension with _ | dim
  · rw [hdim] at h
    have := insertGo_error_records idx { c with dimension := some r.vector.length } r e c' h
    exact ⟨this.1, by have := this.2; simp at this; omega⟩
  · rw [hdim] at h
    simp only at h
    by_cases hlen : r.vector.length ≠ dim
    · rw [if_pos hlen] at h
      simp only [Except.error.injEq, Prod.mk.injEq] at h
      rw [← h.2]
      exact ⟨rfl, le_refl _⟩
    · rw [if_neg hlen] at h
      have := insertGo_error_records idx c r e c' h
      exact ⟨this.1, by omega⟩

theorem insertCore_ok_state (idx : Collection → Nat → Nat → Except Err Graph)
    (c : Collection) (r : Record) (v : VectorID) (c' : Collection)
    (h : Collection.insertCore idx c r = .ok (v, c')) :
    v.id = c.counter ∧ c'.counter = c.counter + 1
      ∧ c'.records = c.records ++ [(c.counter, r)] := by
  unfold Collection.insertCore at h
  rcases hdim : c.dimension with _ | dim
  · rw [hdim] at h
    have := insertGo_ok idx { c with dimension := some r.vector.length } r v c' h
    simpa using this
  · rw [hdim] at h
    simp only at h
    by_cases hlen : r.vector.length ≠ dim
    · rw [if_pos hlen] at h
      simp at h
    · rw [if_neg hlen] at h
      exact insertGo_ok idx c r v c' h

theorem insert_counter_le (c : Collection) (o : Op) :
    c.counter ≤ (c.applyOp o).counter := by
  rcases o with r | i | ⟨i, r⟩
  · unfold Collection.applyOp
    rcases h : c.insert r with ⟨e, c'⟩ | ⟨v, c'⟩
    · simp only [h]
      exact (insertCore_error_state _ c r e c' h).2
    · simp only [h]
      have := insertCore_ok_state _ c r v c' h
      omega
  · unfold Collection.applyOp Collection.delete
    by_cases hc : c.containsId i
    · simp [hc, Except.toOption]
    · simp [hc, Except.toOption]
  · unfold Collection.applyOp Collection.update
    by_cases hc : c.containsId i
    · simp [hc, Except.toOption]
    · simp [hc, Except.toOption]

theorem applyOps_counter_le (c : Collection) (ops : List Op) :
    c.counter ≤ (c.applyOps ops).counter := by
  induction ops generalizing c with
  | nil => exact le_refl _
  | cons o rest ih =>
    exact le_trans (insert_counter_le c o) (ih (c.applyOp o))

theorem lookup_mem {α : Type} [DecidableEq α] {β : Type} (i : α) (v : β)
    (l : List (α × β)) (h : List.lookup i l = some v) : (i, v) ∈ l := by
  induction l with
  | nil => simp [List.lookup] at h
  | cons p rest ih =>
    rcases p with ⟨a, b⟩
    cases hb : i == a with
    | false =>
      rw [List.lookup, hb] at h
      exact List.mem_cons.2 (Or.inr (ih h))
    | true =>
      rw [List.lookup, hb] at h
      have he : i = a := by simpa using hb
      have hv : b = v := by simpa using h
      rw [he, ← hv]
      exact List.mem_cons.2 (Or.inl rfl)

/-! ## Concrete sample objects for witnesses -/

/-- A two-dimensional euclidean sample record. -/
def recA : Record := ⟨[4, 0], [0]⟩

/-- A second two-dimensional sample record. -/
def recB : Record := ⟨[1, 1], [1]⟩

/-- A third two-dimensional sample record. -/
def recC : Record := ⟨[0, 3], [2]⟩

/-- A record of the wrong dimension for the samples above. -/
def recBad : Record := ⟨[1, 2, 3], [9]⟩

/-- A sample collection holding `recA` and `recB` (dimension 2). -/
def cPair : Collection :=
  (Collection.fromRecords Config.create_default [recA, recB]).toOption.getD
    (Collection.emptyCollection Config.create_default)

/-! ## Claims -/

/-- C1: for every collection whose dimension is fixed, inserting a record of
a different vector length fails with `InvalidVectorDimension` whose message
contains "invalid vector dimension" and leaves the collection unchanged
(`len()` keeps its prior value); moreover, for every index-layer step `idx`
and every failing insert, the record map of the reported state equals the
original record map (the record-map insertion is rolled back: insert is
atomic). -/
theorem C1_invalid_dimension_insert_atomic (c : Collection) (d : Nat) (r : Record)
    (idx : Collection → Nat → Nat → Except Err Graph) (e : Err) (c' : Collection)
    (hdim : c.dimension = some d) :
    (r.vector.length ≠ d →
      c.insert r = .error (.InvalidVectorDimension, c)
      ∧ ∃ s t, Err.message .InvalidVectorDimension = s ++ "invalid vector dimension" ++ t)
    ∧ (Collection.insertCore idx c r = .error (e, c') →
        c'.records = c.records ∧ c'.len = c.len) := by
  constructor
  · intro hlen
    refine ⟨?_, "", "", rfl⟩
    simp only [Collection.insert, Collection.insertCore, hdim]
    rw [if_pos hlen]
  · intro h
    have := insertCore_error_state idx c r e c' h
    exact ⟨this.1, by unfold Collection.len; rw [this.1]⟩

/-- Witness for C1 at a concrete input: `cPair` has fixed dimension 2 and
rejects the 3-dimensional `recBad` unchanged. -/
theorem C1_invalid_dimension_insert_atomic_witness :
    cPair.dimension = some 2
    ∧ (recBad.vector.length ≠ 2 →
        cPair.insert recBad = .error (.InvalidVectorDimension, cPair)
        ∧ ∃ s t, Err.message .InvalidVectorDimension = s ++ "invalid vector dimension" ++ t)
    ∧ (Collection.insertCore Collection.graphIdx cPair recBad
          = .error (.InvalidVectorDimension, cPair) →
        cPair.records = cPair.records ∧ cPair.len = cPair.len) :=
  ⟨by decide,
   C1_invalid_dimension_insert_atomic cPair 2 recBad Collection.graphIdx
     .InvalidVectorDimension cPair (by decide)⟩

theorem delete_ok_state (c : Collection) (i : VectorID) (cd : Collection)
    (h : c.delete i = .ok cd) : c.containsId i = true ∧ cd.counter = c.counter := by
  unfold Collection.delete at h
  split at h
  case isTrue hc =>
    simp only [Except.ok.injEq] at h
    rw [← h]
    exact ⟨hc, rfl⟩
  case isFalse hc => simp at h

theorem insertMany_counter (c : Collection) (rs : List Record) (c' : Collection)
    (h : c.insertMany rs = .ok c') : c'.counter = c.counter + rs.length := by
  induction rs generalizing c with
  | nil =>
    simp only [Collection.insertMany, Except.ok.injEq] at h
    rw [h]
    simp
  | cons r rest ih =>
    unfold Collection.insertMany at h
    rcases hr : c.insert r with ⟨e, c1⟩ | ⟨v, c1⟩
    · rw [hr] at h
      simp at h
    · rw [hr] at h
      have h1 := insertCore_ok_state _ c r v c1 hr
      have h2 := ih c1 h
      simp only [List.length_cons]
      omega

theorem containsId_lt_counter (c : Collection) (k : VectorID)
    (hinv : c.idsBelow) (hc : c.containsId k = true) : k.id < c.counter := by
  unfold Collection.containsId at hc
  rcases hl : List.lookup k.id c.records with _ | rec
  · rw [hl] at hc
    simp at hc
  · exact hinv (k.id, rec) (lookup_mem k.id rec c.records hl)

/-- C2: the next-ID counter of a collection starts at 0 and is incremented
on every successful insert, which hands out the pre-bump counter as the new
`VectorID` (so a batch of N records ends with counter N and the next insert
yields `VectorID(N)`); delete leaves the counter untouched; an insert whose
index step fails after validation still consumes an ID; and under the
counter invariant a deleted ID is never handed out by any later insert,
whatever operations run in between. -/
theorem C2_id_counter (cfg : Config)
    (c : Collection) (r : Record) (v : VectorID) (c' : Collection)
    (cm : Collection) (rsm : List Record) (cm' : Collection)
    (cd0 : Collection) (i : VectorID) (cd : Collection)
    (idx : Collection → Nat → Nat → Except Err Graph)
    (cf : Collection) (rf : Record) (e : Err) (cf' : Collection)
    (cs : Collection) (k : VectorID) (csd : Collection) (ops : List Op)
    (rs : Record) (vs : VectorID) (cs'' : Collection) :
    (Collection.emptyCollection cfg).counter = 0
    ∧ (c.insert r = .ok (v, c') → v.id = c.counter ∧ c'.counter = c.counter + 1)
    ∧ (cm.insertMany rsm = .ok cm' → cm'.counter = cm.counter + rsm.length)
    ∧ (cd0.delete i = .ok cd → cd.counter = cd0.counter)
    ∧ (Collection.insertGo idx cf rf = .error (e, cf') → cf'.counter = cf.counter + 1)
    ∧ (cs.idsBelow → cs.delete k = .ok csd →
        (csd.applyOps ops).insert rs = .ok (vs, cs'') → vs.id ≠ k.id) := by
  refine ⟨rfl, ?_, ?_, ?_, ?_, ?_⟩
  · intro h
    have := insertCore_ok_state _ c r v c' h
    exact ⟨this.1, this.2.1⟩
  · exact insertMany_counter cm rsm cm'
  · intro h
    exact (delete_ok_state cd0 i cd h).2
  · intro h
    exact (insertGo_error_records idx cf rf e cf' h).2
  · intro hinv hdel hins
    have hklt : k.id < cs.counter := containsId_lt_counter cs k hinv (delete_ok_state cs k csd hdel).1
    have hcd : csd.counter = cs.counter := (delete_ok_state cs k csd hdel).2
    have hmono : csd.counter ≤ (csd.applyOps ops).counter := applyOps_counter_le csd ops
    have hvid : vs.id = (csd.applyOps ops).counter :=
      (insertCore_ok_state _ (csd.applyOps ops) rs vs cs'' hins).1
    omega

/-- The sample collection after deleting ID 0. -/
def cPairDel : Collection := (cPair.delete ⟨0⟩).toOption.getD cPair

/-- The state after re-inserting a record into `cPairDel` (the successful
case of the insert). -/
def cPairDelIns : Collection :=
  match cPairDel.insert recC with
  | .ok (_, c') => c'
  | .error (_, c') => c'

/-- Witness for C2 at a concrete input: in the two-record sample, deleting
ID 0 and inserting again hands out ID 2, not the freed ID 0. -/
theorem C2_id_counter_witness :
    cPair.idsBelow
    ∧ cPair.delete ⟨0⟩ = .ok cPairDel
    ∧ (cPairDel.applyOps []).insert recC = .ok (⟨2⟩, cPairDelIns)
    ∧ (⟨2⟩ : VectorID).id ≠ (⟨0⟩ : VectorID).id :=
  ⟨by decide, by rfl, by rfl,
   (C2_id_counter Config.create_default cPair recC ⟨2⟩ cPairDelIns cPair [] cPair
      cPair ⟨0⟩ cPairDel Collection.graphIdx cPair recC .IoError cPair
      cPair ⟨0⟩ cPairDel [] recC ⟨2⟩ cPairDelIns).2.2.2.2.2
     (by decide) (by rfl) (by rfl)⟩

theorem lookup_map_replace (i : Nat) (r : Record) (l : List (Nat × Record)) :
    List.lookup i (l.map fun p => if p.1 = i then (p.1, r) else p)
      = (List.lookup i l).map fun _ => r := by
  induction l with
  | nil => rfl
  | cons p rest ih =>
    rcases p with ⟨a, b⟩
    simp only [List.map_cons]
    by_cases ha : a = i
    · subst ha
      rw [if_pos rfl]
      simp [List.lookup]
    · rw [if_neg ha]
      have hne : (i == a) = false := beq_eq_false_iff_ne.mpr (Ne.symm ha)
      simp [List.lookup, hne, ih]

/-- C6: for every collection and present id, `update(id, record)` preserves
the id — afterwards `contains(id)` holds and `get(id)` returns the new
record (new vector and new payload) — and `update` fails with `UnknownID`
when the id is not present. -/
theorem C6_update_preserves_id (c : Collection) (i : VectorID) (r : Record) :
    (c.containsId i = true →
      ∃ c', c.update i r = .ok c' ∧ c'.containsId i = true ∧ c'.get i = some r)
    ∧ (c.containsId i = false → c.update i r = .error .UnknownID) := by
  constructor
  · intro hc
    unfold Collection.update
    rw [if_pos hc]
    refine ⟨_, rfl, ?_, ?_⟩
    · unfold Collection.containsId at hc ⊢
      simp only [lookup_map_replace]
      rcases hl : List.lookup i.id c.records with _ | rec
      · rw [hl] at hc
        simp at hc
      · simp [hl]
    · unfold Collection.containsId at hc
      unfold Collection.get
      simp only [lookup_map_replace]
      rcases hl : List.lookup i.id c.records with _ | rec
      · rw [hl] at hc
        simp at hc
      · simp [hl]
  · intro hc
    unfold Collection.update
    rw [if_neg (by simp [hc])]

/-- Witness for C6 at a concrete input: updating ID 0 of the two-record
sample succeeds and stores the new record; updating the absent ID 5 fails
with `UnknownID`. -/
theorem C6_update_preserves_id_witness :
    (cPair.containsId ⟨0⟩ = true
      ∧ ∃ c', cPair.update ⟨0⟩ recC = .ok c'
          ∧ c'.containsId ⟨0⟩ = true ∧ c'.get ⟨0⟩ = some recC)
    ∧ (cPair.containsId ⟨5⟩ = false ∧ cPair.update ⟨5⟩ recC = .error .UnknownID) :=
  ⟨⟨by decide, (C6_update_preserves_id cPair ⟨0⟩ recC).1 (by decide)⟩,
   ⟨by decide, (C6_update_preserves_id cPair ⟨5⟩ recC).2 (by decide)⟩⟩

theorem insert_preserves_contains (c : Collection) (r : Record) (v : VectorID)
    (c' : Collection) (j : VectorID)
    (h : c.insert r = .ok (v, c')) (hj : c.containsId j = true) :
    c'.containsId j = true := by
  have hs := insertCore_ok_state _ c r v c' h
  unfold Collection.containsId at hj ⊢
  rw [hs.2.2, List.lookup_append]
  rcases hl : List.lookup j.id c.records with _ | rec
  · rw [hl] at hj
    simp at hj
  · simp [hl, Option.or]

theorem insertMany_preserves_contains (rs : List Record) (c : Collection)
    (c' : Collection) (j : VectorID)
    (h : c.insertMany rs = .ok c') (hj : c.containsId j = true) :
    c'.containsId j = true := by
  induction rs generalizing c with
  | nil =>
    simp only [Collection.insertMany, Except.ok.injEq] at h
    rw [← h]
    exact hj
  | cons r rest ih =>
    unfold Collection.insertMany at h
    rcases hr : c.insert r with ⟨e, c1⟩ | ⟨v, c1⟩
    · rw [hr] at h
      simp at h
    · rw [hr] at h
      exact ih c1 h (insert_preserves_contains c r v c1 j hr hj)

theorem insert_contains_counter (c : Collection) (r : Record) (v : VectorID)
    (c' : Collection) (h : c.insert r = .ok (v, c')) :
    c'.containsId ⟨c.counter⟩ = true := by
  have hs := insertCore_ok_state _ c r v c' h
  unfold Collection.containsId
  rw [hs.2.2, List.lookup_append]
  rcases hl : List.lookup c.counter c.records with _ | rec
  · simp [Option.or, List.lookup]
  · simp [hl, Option.or]

theorem insert_ok_of_dim_none (c : Collection) (r : Record) (h : c.dimension = none) :
    ∃ c', c.insert r = .ok (⟨c.counter⟩, c') := by
  unfold Collection.insert Collection.insertCore
  rw [h]
  exact ⟨_, rfl⟩

/-- C9: `VectorID(n).is_valid()` is false exactly when `n` is the reserved
sentinel 0, yet the IDs a collection assigns begin at 0: after building a
collection from a non-empty record batch, `contains(VectorID(0))` is true —
ID 0 names a live record while `is_valid()` calls it invalid. -/
theorem C9_sentinel_zero_is_live (cfg : Config) (r : Record) (rs : List Record)
    (c : Collection) (hbuild : Collection.fromRecords cfg (r :: rs) = .ok c) :
    (∀ n : Nat, (VectorID.mk n).is_valid = false ↔ n = 0)
    ∧ c.containsId ⟨0⟩ = true := by
  constructor
  · intro n
    constructor
    · intro h
      by_contra hne
      simp [VectorID.is_valid, hne] at h
    · intro h
      simp [VectorID.is_valid, h]
  · unfold Collection.fromRecords Collection.insertMany at hbuild
    rcases hr : (Collection.emptyCollection cfg).insert r with ⟨e, c1⟩ | ⟨v, c1⟩
    · obtain ⟨c1', hok⟩ := insert_ok_of_dim_none (Collection.emptyCollection cfg) r rfl
      rw [hr] at hok
      simp at hok
    · rw [hr] at hbuild
      have h0 : c1.containsId ⟨0⟩ = true := by
        have := insert_contains_counter (Collection.emptyCollection cfg) r v c1 hr
        simpa [Collection.emptyCollection] using this
      exact insertMany_preserves_contains rs c1 c ⟨0⟩ hbuild h0

/-- Witness for C9 at a concrete input: the two-record sample built from a
non-empty batch contains the sentinel ID 0. -/
theorem C9_sentinel_zero_is_live_witness :
    Collection.fromRecords Config.create_default [recA, recB] = .ok cPair
    ∧ ((∀ n : Nat, (VectorID.mk n).is_valid = false ↔ n = 0)
        ∧ cPair.containsId ⟨0⟩ = true) :=
  ⟨by rfl, C9_sentinel_zero_is_live Config.create_default recA [recB] cPair (by rfl)⟩

/-- The default config with its distance field reassigned to cosine after
construction, as the cosine test does. -/
def cfgCos : Config := { Config.create_default with distance := Metric.cosine }

/-- C10: a Config's distance field may be reassigned after construction,
and a Collection built from the reassigned config uses the new metric for
both `search` and `true_search`: on the sample pair, query `[1, 0]` ranks
record 0 first under the reassigned cosine metric, while the same build
under the untouched default (euclidean) config ranks record 1 first. -/
theorem C10_config_distance_reassignable :
    cfgCos.distance = Metric.cosine
    ∧ Config.create_default.distance = Metric.euclidean
    ∧ (Collection.fromRecords cfgCos [recA, recB]).map
        (fun c => ((c.search [1, 0] 1).map SearchResult.id,
                   (c.trueSearch [1, 0] 1).map SearchResult.id))
        = .ok ([⟨0⟩], [⟨0⟩])
    ∧ (Collection.fromRecords Config.create_default [recA, recB]).map
        (fun c => ((c.search [1, 0] 1).map SearchResult.id,
                   (c.trueSearch [1, 0] 1).map SearchResult.id))
        = .ok ([⟨1⟩], [⟨1⟩]) := by
  exact ⟨rfl, rfl, by with_unfolding_all rfl, by with_unfolding_all rfl⟩

/-- C5: when the relevancy cutoff is set, `search` drops exactly the results
whose distance exceeds it — the output is the raw ANN ranking filtered to
distances at most `relevancy`, every returned distance is at most
`relevancy`, and on a non-empty collection an empty output means every raw
result was beyond the cutoff. -/
theorem C5_relevancy_cutoff (c : Collection) (q : Vec) (k : Nat) (rel : ℚ)
    (hrel : c.relevancy = some rel) :
    c.search q k = (c.rawSearch q k).filter (fun s => s.distance ≤ rel)
    ∧ (∀ s ∈ c.search q k, s.distance ≤ rel)
    ∧ (c.isEmpty = false → c.search q k = [] →
        ∀ s ∈ c.rawSearch q k, rel < s.distance) := by
  have h1 : c.search q k = (c.rawSearch q k).filter (fun s => s.distance ≤ rel) := by
    unfold Collection.search
    rw [hrel]
  refine ⟨h1, ?_, ?_⟩
  · intro s hs
    rw [h1] at hs
    simpa using (List.mem_filter.1 hs).2
  · intro _ hempty s hs
    rw [h1] at hempty
    have := List.filter_eq_nil_iff.1 hempty s hs
    simpa using lt_of_not_le (by simpa using this)

/-- A sample collection with a relevancy cutoff set. -/
def cPairRel : Collection := { cPair with relevancy := some 5 }

/-- Witness for C5 at a concrete input: with relevancy 5 on the two-record
sample, the search output is exactly the filtered raw ranking. -/
theorem C5_relevancy_cutoff_witness :
    cPairRel.relevancy = some 5
    ∧ (cPairRel.search [1, 0] 2
        = (cPairRel.rawSearch [1, 0] 2).filter (fun s => s.distance ≤ 5)
      ∧ (∀ s ∈ cPairRel.search [1, 0] 2, s.distance ≤ 5)
      ∧ (cPairRel.isEmpty = false → cPairRel.search [1, 0] 2 = [] →
          ∀ s ∈ cPairRel.rawSearch [1, 0] 2, 5 < s.distance)) :=
  ⟨rfl, C5_relevancy_cutoff cPairRel [1, 0] 2 5 rfl⟩

theorem search_only_fields (c1 c2 : Collection) (hr : c1.records = c2.records)
    (hg : c1.graph = c2.graph) (hc : c1.config = c2.config)
    (hrel : c1.relevancy = c2.relevancy) (q : Vec) (k : Nat) :
    c1.search q k = c2.search q k ∧ c1.trueSearch q k = c2.trueSearch q k := by
  obtain ⟨r1, g1, cf1, d1, re1, ct1, lv1⟩ := c1
  obtain ⟨r2, g2, cf2, d2, re2, ct2, lv2⟩ := c2
  simp only at hr hg hc hrel
  cases hr
  cases hg
  cases hc
  cases hrel
  exact ⟨rfl, rfl⟩

/-- C7: saving a collection under a name and loading it back yields a
collection with equal records, equal per-layer adjacency (including
neighbor-list ordering and the entry point), equal ID counter, equal config,
dimension and relevancy, and equal `search` and `true_search` results on
every identical query. -/
theorem C7_save_load_round_trip (db : Database) (name : String) (c : Collection)
    (q : Vec) (k : Nat) :
    ∃ c', (db.save_collection name c).get_collection name = .ok c'
      ∧ c'.records = c.records ∧ c'.graph = c.graph ∧ c'.counter = c.counter
      ∧ c'.config = c.config ∧ c'.dimension = c.dimension ∧ c'.relevancy = c.relevancy
      ∧ c'.search q k = c.search q k ∧ c'.trueSearch q k = c.trueSearch q k := by
  have hget : (db.save_collection name c).get_collection name
      = Collection.deserialize c.serialize := by
    unfold Database.get_collection Database.save_collection
    simp [List.lookup]
  have hgraph : (⟨(c.graph.layers.map Layer.adj).map Layer.mk, c.graph.entry⟩ : Graph)
      = c.graph := by
    rw [List.map_map]
    have hid : (Layer.mk ∘ Layer.adj) = id := rfl
    rw [hid, List.map_id]
  have hsf := search_only_fields
    { records := c.records,
      graph := ⟨(c.graph.layers.map Layer.adj).map Layer.mk, c.graph.entry⟩,
      config := c.config, dimension := c.dimension, relevancy := c.relevancy,
      counter := c.counter, levels := [] } c rfl hgraph rfl rfl q k
  refine ⟨{ records := c.records,
            graph := ⟨(c.graph.layers.map Layer.adj).map Layer.mk, c.graph.entry⟩,
            config := c.config, dimension := c.dimension, relevancy := c.relevancy,
            counter := c.counter, levels := [] },
          ?_, rfl, hgraph, rfl, rfl, rfl, rfl, hsf.1, hsf.2⟩
  rw [hget]
  unfold Collection.deserialize Collection.serialize
  rw [if_neg (by simp), if_neg (by simp)]

/-- The ranking order on search results: ascending distance, ties by
VectorID ascending. -/
def resRank (a b : SearchResult) : Prop :=
  a.distance < b.distance ∨ (a.distance = b.distance ∧ a.id.id ≤ b.id.id)

theorem sorted_take_rank (l : List (ℚ × Nat)) (k : Nat) (h : l.Sorted rankLE) :
    (l.take k).Sorted rankLE :=
  List.Pairwise.sublist (List.take_sublist k l) h

theorem beamExpand_best_sorted (fd : Nat → ℚ) (ef : Nat) (s : BeamState)
    (ns : List Nat) (h : s.best.Sorted rankLE) :
    (beamExpand fd ef s ns).best.Sorted rankLE := by
  induction ns generalizing s with
  | nil => exact h
  | cons n rest ih =>
    unfold beamExpand
    rw [List.foldl_cons]
    by_cases hv : n ∈ s.visited
    · rw [if_pos hv]
      exact ih _ h
    · rw [if_neg hv]
      exact ih _ (sorted_take_rank _ ef (h.orderedInsert (fd n, n) s.best))

theorem beamLoop_best_sorted (L : Layer) (fd : Nat → ℚ) (ef : Nat) (fuel : Nat)
    (s : BeamState) (h : s.best.Sorted rankLE) :
    (beamLoop L fd ef fuel s).best.Sorted rankLE := by
  induction fuel generalizing s with
  | zero => exact h
  | succ fuel ih =>
    rcases hc : s.cands with _ | ⟨c, rest⟩
    · unfold beamLoop
      simp only [hc]
      exact h
    · unfold beamLoop
      simp only [hc]
      by_cases hstop : ef ≤ s.best.length ∧ ∃ w ∈ s.best.getLast?, w.1 < c.1
      · rw [if_pos hstop]
        exact h
      · rw [if_neg hstop]
        exact ih _ (beamExpand_best_sorted fd ef _ (L.nbrs c.2) h)

theorem beamSearch_sorted (L : Layer) (fd : Nat → ℚ) (ef : Nat) (ep : Nat) :
    (L.beamSearch fd ef ep).Sorted rankLE := by
  unfold Layer.beamSearch
  exact beamLoop_best_sorted L fd ef _ _
    (sorted_take_rank [(fd ep, ep)] ef (List.sorted_singleton _))

theorem pairwise_resRank_of_rank (l : List (ℚ × Nat)) (h : l.Sorted rankLE) :
    (l.map fun p => (⟨⟨p.2⟩, p.1⟩ : SearchResult)).Pairwise resRank := by
  refine List.Pairwise.map _ ?_ h
  intro a b hab
  exact hab

theorem rawSearch_pairwise (c : Collection) (q : Vec) (k : Nat) :
    (c.rawSearch q k).Pairwise resRank := by
  unfold Collection.rawSearch
  rcases c.graph.entry with _ | ep0
  · exact List.Pairwise.nil
  · exact pairwise_resRank_of_rank _ (sorted_take_rank _ k (beamSearch_sorted _ _ _ _))

/-- C3: every result list returned by `search` and by `true_search` is
ranked — sorted ascending by distance (both metrics are smaller-is-closer),
with results at equal distance ordered by VectorID ascending. -/
theorem C3_results_sorted (c : Collection) (q : Vec) (k : Nat) :
    (c.search q k).Pairwise resRank ∧ (c.trueSearch q k).Pairwise resRank := by
  constructor
  · unfold Collection.search
    rcases c.relevancy with _ | rel
    · exact rawSearch_pairwise c q k
    · exact List.Pairwise.sublist (List.filter_sublist _) (rawSearch_pairwise c q k)
  · unfold Collection.trueSearch
    exact pairwise_resRank_of_rank _
      (sorted_take_rank _ k (List.sorted_insertionSort rankLE _))

/-! ## Layer toolkit for the graph invariants -/

theorem lookup_eq_none_keys {β : Type} (i : Nat) (l : List (Nat × β))
    (h : i ∉ l.map Prod.fst) : List.lookup i l = none := by
  induction l with
  | nil => rfl
  | cons p rest ih =>
    rw [List.map_cons] at h
    rw [List.lookup]
    have h1 : i ≠ p.1 := fun he => h (List.mem_cons.2 (Or.inl he))
    rw [beq_eq_false_iff_ne.mpr h1]
    exact ih fun hm => h (List.mem_cons.2 (Or.inr hm))

theorem lookup_isSome_keys {β : Type} (i : Nat) (l : List (Nat × β))
    (h : i ∈ l.map Prod.fst) : ∃ v, List.lookup i l = some v := by
  induction l with
  | nil => simp at h
  | cons p rest ih =>
    rw [List.map_cons] at h
    by_cases he : i = p.1
    · exact ⟨p.2, by rw [List.lookup, beq_iff_eq.mpr he]⟩
    · rcases List.mem_cons.1 h with h1 | h1
      · exact absurd h1 he
      · obtain ⟨v, hv⟩ := ih h1
        exact ⟨v, by rw [List.lookup, beq_eq_false_iff_ne.mpr he, hv]⟩

theorem Layer.nbrs_not_mem (L : Layer) (i : Nat) (h : i ∉ L.nodes) :
    L.nbrs i = [] := by
  unfold Layer.nbrs
  rw [lookup_eq_none_keys i L.adj h]
  rfl

theorem lookup_map_snd {β : Type} (f : Nat → β → β) (j : Nat) (l : List (Nat × β)) :
    List.lookup j (l.map fun p => (p.1, f p.1 p.2)) = (List.lookup j l).map (f j) := by
  induction l with
  | nil => rfl
  | cons p rest ih =>
    rcases p with ⟨a, b⟩
    by_cases he : j = a
    · subst he
      rw [List.map_cons, List.lookup, List.lookup]
      simp
    · rw [List.map_cons, List.lookup, List.lookup, beq_eq_false_iff_ne.mpr he]
      simpa [beq_eq_false_iff_ne.mpr he] using ih

theorem Layer.setNbrs_adj (L : Layer) (i : Nat) (ns : List Nat) :
    (L.setNbrs i ns).adj = L.adj.map fun p => (p.1, if p.1 = i then ns else p.2) := by
  have hfun : (fun p : Nat × List Nat => if p.1 = i then (p.1, ns) else p)
      = fun p => (p.1, if p.1 = i then ns else p.2) := by
    funext p
    by_cases h : p.1 = i
    · rw [if_pos h, if_pos h, h]
    · rw [if_neg h, if_neg h]
  unfold Layer.setNbrs
  dsimp only
  rw [hfun]

theorem Layer.addEdge_adj (L : Layer) (i j : Nat) :
    (L.addEdge i j).adj
      = L.adj.map fun p => (p.1, if p.1 = i ∧ j ∉ p.2 then p.2 ++ [j] else p.2) := by
  have hfun : (fun p : Nat × List Nat => if p.1 = i ∧ j ∉ p.2 then (p.1, p.2 ++ [j]) else p)
      = fun p => (p.1, if p.1 = i ∧ j ∉ p.2 then p.2 ++ [j] else p.2) := by
    funext p
    by_cases h : p.1 = i ∧ j ∉ p.2
    · rw [if_pos h, if_pos h, h.1]
    · rw [if_neg h, if_neg h]
  unfold Layer.addEdge
  dsimp only
  rw [hfun]

theorem Layer.nodes_setNbrs (L : Layer) (i : Nat) (ns : List Nat) :
    (L.setNbrs i ns).nodes = L.nodes := by
  unfold Layer.nodes
  rw [Layer.setNbrs_adj, List.map_map]
  rfl

theorem Layer.nodes_addEdge (L : Layer) (i j : Nat) :
    (L.addEdge i j).nodes = L.nodes := by
  unfold Layer.nodes
  rw [Layer.addEdge_adj, List.map_map]
  rfl

theorem Layer.nodes_addNode (L : Layer) (i : Nat) (h : i ∉ L.nodes) :
    (L.addNode i).nodes = L.nodes ++ [i] := by
  unfold Layer.addNode
  rw [if_neg h]
  unfold Layer.nodes
  rw [List.map_append]
  rfl

theorem Layer.nbrs_setNbrs_self (L : Layer) (i : Nat) (ns : List Nat) (h : i ∈ L.nodes) :
    (L.setNbrs i ns).nbrs i = ns := by
  unfold Layer.nbrs
  rw [Layer.setNbrs_adj, lookup_map_snd (fun a v => if a = i then ns else v) i L.adj]
  obtain ⟨v, hv⟩ := lookup_isSome_keys i L.adj h
  rw [hv]
  simp

theorem Layer.nbrs_setNbrs_ne (L : Layer) (i k : Nat) (ns : List Nat) (h : k ≠ i) :
    (L.setNbrs i ns).nbrs k = L.nbrs k := by
  unfold Layer.nbrs
  rw [Layer.setNbrs_adj, lookup_map_snd (fun a v => if a = i then ns else v) k L.adj]
  rcases hv : List.lookup k L.adj with _ | v
  · rfl
  · simp [if_neg h]

theorem Layer.nbrs_addEdge_self (L : Layer) (i j : Nat) (h : i ∈ L.nodes)
    (hj : j ∉ L.nbrs i) : (L.addEdge i j).nbrs i = L.nbrs i ++ [j] := by
  unfold Layer.nbrs at hj ⊢
  rw [Layer.addEdge_adj, lookup_map_snd (fun k v => if k = i ∧ j ∉ v then v ++ [j] else v) i L.adj]
  obtain ⟨v, hv⟩ := lookup_isSome_keys i L.adj h
  rw [hv] at hj ⊢
  simp only [Option.getD_some] at hj
  simp [hj]

theorem Layer.nbrs_addEdge_ne (L : Layer) (i j k : Nat) (h : k ≠ i) :
    (L.addEdge i j).nbrs k = L.nbrs k := by
  unfold Layer.nbrs
  rw [Layer.addEdge_adj, lookup_map_snd (fun a v => if a = i ∧ j ∉ v then v ++ [j] else v) k L.adj]
  rcases hv : List.lookup k L.adj with _ | v
  · rfl
  · have hne : ¬(k = i ∧ j ∉ v) := fun hc => h hc.1
    simp [hne]

theorem Layer.nbrs_addNode_self (L : Layer) (i : Nat) (h : i ∉ L.nodes) :
    (L.addNode i).nbrs i = [] := by
  unfold Layer.addNode
  rw [if_neg h]
  unfold Layer.nbrs
  rw [List.lookup_append, lookup_eq_none_keys i L.adj h]
  simp [List.lookup]

theorem Layer.nbrs_addNode_ne (L : Layer) (i k : Nat) (h : k ≠ i) :
    (L.addNode i).nbrs k = L.nbrs k := by
  unfold Layer.addNode
  by_cases hm : i ∈ L.nodes
  · rw [if_pos hm]
  · rw [if_neg hm]
    unfold Layer.nbrs
    rw [List.lookup_append]
    rcases hv : List.lookup k L.adj with _ | v
    · simp [List.lookup, beq_eq_false_iff_ne.mpr h, Option.or]
    · simp [Option.or]

/-- Edge-reachability within one layer, following neighbor lists. -/
inductive Layer.Reach (L : Layer) (s : Nat) : Nat → Prop
  | refl : L.Reach s s
  | step {u v : Nat} : L.Reach s u → v ∈ L.nbrs u → L.Reach s v

/-- Symmetric adjacency: every edge has its reverse. -/
def Layer.Sym (L : Layer) : Prop := ∀ i j, j ∈ L.nbrs i → i ∈ L.nbrs j

/-- Well-formedness of a layer relative to the live-ID set `N`:
duplicate-free node list; duplicate-free, self-loop-free neighbor lists
pointing into `N`. -/
def Layer.WfN (L : Layer) (N : List Nat) : Prop :=
  L.nodes.Nodup ∧ ∀ p ∈ L.adj, p.2.Nodup ∧ p.1 ∉ p.2 ∧ ∀ j ∈ p.2, j ∈ N

theorem Layer.nbrs_mem_of_wf (L : Layer) (N : List Nat) (hwf : L.WfN N)
    (i j : Nat) (hj : j ∈ L.nbrs i) : j ∈ N := by
  unfold Layer.nbrs at hj
  rcases hv : List.lookup i L.adj with _ | v
  · rw [hv] at hj
    simp at hj
  · rw [hv] at hj
    exact (hwf.2 (i, v) (lookup_mem i v L.adj hv)).2.2 j hj

theorem Layer.nbrs_nodup_of_wf (L : Layer) (N : List Nat) (hwf : L.WfN N)
    (i : Nat) : (L.nbrs i).Nodup := by
  unfold Layer.nbrs
  rcases hv : List.lookup i L.adj with _ | v
  · simp
  · exact (hwf.2 (i, v) (lookup_mem i v L.adj hv)).1

theorem Layer.nbrs_self_not_mem_of_wf (L : Layer) (N : List Nat) (hwf : L.WfN N)
    (i : Nat) : i ∉ L.nbrs i := by
  unfold Layer.nbrs
  rcases hv : List.lookup i L.adj with _ | v
  · simp
  · exact (hwf.2 (i, v) (lookup_mem i v L.adj hv)).2.1

theorem Layer.Reach.trans (L : Layer) (a b c : Nat)
    (h1 : L.Reach a b) (h2 : L.Reach b c) : L.Reach a c := by
  induction h2 with
  | refl => exact h1
  | step _ hv ih => exact Layer.Reach.step ih hv

theorem Layer.Reach.mono (L L' : Layer) (s n : Nat)
    (hsub : ∀ u j, j ∈ L.nbrs u → j ∈ L'.nbrs u) (h : L.Reach s n) : L'.Reach s n := by
  induction h with
  | refl => exact Layer.Reach.refl
  | step _ hv ih => exact Layer.Reach.step ih (hsub _ _ hv)

theorem Layer.Reach.symm (L : Layer) (s n : Nat) (hsym : L.Sym)
    (h : L.Reach s n) : L.Reach n s := by
  induction h with
  | refl => exact Layer.Reach.refl
  | step _ hv ih =>
    exact Layer.Reach.trans _ _ _ _
      (Layer.Reach.step Layer.Reach.refl (hsym _ _ hv)) ih

theorem greedy_mem (L : Layer) (fd : Nat → ℚ) (S : List Nat)
    (hsub : ∀ i j, j ∈ L.nbrs i → j ∈ S) :
    ∀ fuel cur, cur ∈ S → L.greedy fd fuel cur ∈ S := by
  intro fuel
  induction fuel with
  | zero => intro cur h; exact h
  | succ fuel ih =>
    intro cur h
    unfold Layer.greedy
    split
    · exact h
    case _ m rest hs =>
      by_cases hlt : m.1 < fd cur
      · rw [if_pos hlt]
        have hm : m ∈ (L.nbrs cur).map fun n => (fd n, n) :=
          (List.perm_insertionSort rankLE _).mem_iff.1 (hs ▸ List.mem_cons_self m rest)
        obtain ⟨n, hn, he⟩ := List.mem_map.1 hm
        have h2 : m.2 ∈ S := by
          rw [← he]
          exact hsub cur n hn
        exact ih m.2 h2
      · rw [if_neg hlt]
        exact h

theorem heuristicGo_sublist (dv : Nat → Nat → ℚ) (m : Nat) :
    ∀ (C S : List (ℚ × Nat)), List.Sublist (heuristicGo dv m C S) (S.reverse ++ C) := by
  intro C
  induction C with
  | nil =>
    intro S
    unfold heuristicGo
    simp
  | cons c rest ih =>
    intro S
    unfold heuristicGo
    by_cases h1 : m ≤ S.length
    · rw [if_pos h1]
      exact List.sublist_append_left S.reverse (c :: rest)
    · rw [if_neg h1]
      by_cases h2 : S.any fun s => dv c.2 s.2 < c.1
      · rw [if_pos h2]
        exact (ih S).trans ((List.Sublist.cons c (List.Sublist.refl rest)).append_left S.reverse)
      · rw [if_neg h2]
        have := ih (c :: S)
        rw [List.reverse_cons, List.append_assoc] at this
        exact this

theorem heuristicGo_length (dv : Nat → Nat → ℚ) (m : Nat) :
    ∀ (C S : List (ℚ × Nat)), S.length ≤ (heuristicGo dv m C S).length := by
  intro C
  induction C with
  | nil =>
    intro S
    unfold heuristicGo
    simp
  | cons c rest ih =>
    intro S
    unfold heuristicGo
    by_cases h1 : m ≤ S.length
    · rw [if_pos h1]
      simp
    · rw [if_neg h1]
      by_cases h2 : S.any fun s => dv c.2 s.2 < c.1
      · rw [if_pos h2]
        exact ih S
      · rw [if_neg h2]
        exact Nat.le_trans (Nat.le_succ _) (ih (c :: S))

theorem heuristicSelect_sublist (dv : Nat → Nat → ℚ) (m : Nat) (C : List (ℚ × Nat)) :
    List.Sublist (heuristicSelect dv m C) (C.insertionSort rankLE) := by
  have := heuristicGo_sublist dv m (C.insertionSort rankLE) []
  simpa using this

theorem heuristicSelect_mem (dv : Nat → Nat → ℚ) (m : Nat) (C : List (ℚ × Nat))
    (p : ℚ × Nat) (h : p ∈ heuristicSelect dv m C) : p ∈ C :=
  (List.perm_insertionSort rankLE C).mem_iff.1
    ((heuristicSelect_sublist dv m C).mem h)

theorem heuristicSelect_ne_nil (dv : Nat → Nat → ℚ) (m : Nat) (C : List (ℚ × Nat))
    (hm : 1 ≤ m) (hC : C ≠ []) : heuristicSelect dv m C ≠ [] := by
  unfold heuristicSelect
  rcases hs : C.insertionSort rankLE with _ | ⟨c, rest⟩
  · have hperm := List.perm_insertionSort rankLE C
    rw [hs] at hperm
    exact absurd (List.Perm.eq_nil hperm.symm) hC
  · unfold heuristicGo
    rw [if_neg (by simp; omega), if_neg (by simp)]
    intro hnil
    have := heuristicGo_length dv m rest [c]
    rw [hnil] at this
    simp at this

/-- Bookkeeping invariant of the beam-search loop, relative to the live-ID
set `N` and the seed: every visited node is the seed or lives in `N`;
candidate and best entries point into the visited set; the best-set is
non-empty and within capacity. -/
def WInv (N : List Nat) (ep : Nat) (ef : Nat) (s : BeamState) : Prop :=
  (∀ v ∈ s.visited, v = ep ∨ v ∈ N) ∧ s.visited.Nodup
  ∧ (∀ p ∈ s.best, p.2 ∈ s.visited) ∧ (s.best.map Prod.snd).Nodup
  ∧ (∀ p ∈ s.cands, p.2 ∈ s.visited)
  ∧ 1 ≤ s.best.length ∧ s.best.length ≤ ef

theorem WInv_push (N : List Nat) (ep ef : Nat) (fd : Nat → ℚ) (s : BeamState) (n : Nat)
    (hn : n ∈ N) (hv : n ∉ s.visited) (hI : WInv N ep ef s) :
    WInv N ep ef
      { cands := List.orderedInsert rankLE (fd n, n) s.cands,
        best := (List.orderedInsert rankLE (fd n, n) s.best).take ef,
        visited := n :: s.visited } := by
  obtain ⟨hvis, hnd, hbv, hbnd, hcv, hlo, hhi⟩ := hI
  have hperm := List.perm_orderedInsert rankLE (fd n, n) s.best
  have hpermc := List.perm_orderedInsert rankLE (fd n, n) s.cands
  refine ⟨?_, ?_, ?_, ?_, ?_, ?_, ?_⟩
  · intro v hvm
    rcases List.mem_cons.1 hvm with h | h
    · exact Or.inr (h ▸ hn)
    · exact hvis v h
  · exact List.nodup_cons.2 ⟨hv, hnd⟩
  · intro p hp
    have hp2 := (List.take_sublist ef _).mem hp
    rcases List.mem_cons.1 (hperm.mem_iff.1 hp2) with h | h
    · rw [h]
      exact List.mem_cons_self n s.visited
    · exact List.mem_cons.2 (Or.inr (hbv p h))
  · have h1 : ((List.orderedInsert rankLE (fd n, n) s.best).map Prod.snd).Nodup := by
      have hpm := hperm.map Prod.snd
      refine hpm.nodup_iff.2 ?_
      rw [List.map_cons]
      refine List.nodup_cons.2 ⟨?_, hbnd⟩
      intro hc
      obtain ⟨p, hpmem, hpe⟩ := List.mem_map.1 hc
      have hpn : p.2 = n := hpe
      exact hv (hpn ▸ hbv p hpmem)
    exact ((List.take_sublist ef _).map Prod.snd).nodup h1
  · intro p hp
    rcases List.mem_cons.1 (hpermc.mem_iff.1 hp) with h | h
    · rw [h]
      exact List.mem_cons_self n s.visited
    · exact List.mem_cons.2 (Or.inr (hcv p h))
  · rw [List.length_take, hperm.length_eq]
    have hef : 1 ≤ ef := le_trans hlo hhi
    simp only [List.length_cons]
    omega
  · rw [List.length_take]
    omega

theorem WInv_expand (N : List Nat) (ep ef : Nat) (fd : Nat → ℚ) :
    ∀ (ns : List Nat) (s : BeamState), (∀ n ∈ ns, n ∈ N) → WInv N ep ef s →
      WInv N ep ef (beamExpand fd ef s ns) := by
  intro ns
  induction ns with
  | nil => intro s _ hI; exact hI
  | cons n rest ih =>
    intro s hns hI
    unfold beamExpand
    rw [List.foldl_cons]
    by_cases hv : n ∈ s.visited
    · rw [if_pos hv]
      exact ih _ (fun x hx => hns x (List.mem_cons.2 (Or.inr hx))) hI
    · rw [if_neg hv]
      exact ih _ (fun x hx => hns x (List.mem_cons.2 (Or.inr hx)))
        (WInv_push N ep ef fd s n (hns n (List.mem_cons_self n rest)) hv hI)

theorem WInv_loop (L : Layer) (N : List Nat) (ep ef : Nat) (fd : Nat → ℚ)
    (hn : ∀ i j, j ∈ L.nbrs i → j ∈ N) :
    ∀ (fuel : Nat) (s : BeamState), WInv N ep ef s →
      WInv N ep ef (beamLoop L fd ef fuel s) := by
  intro fuel
  induction fuel with
  | zero => intro s hI; exact hI
  | succ fuel ih =>
    intro s hI
    rcases hc : s.cands with _ | ⟨c, rest⟩
    · unfold beamLoop
      simp only [hc]
      exact hI
    · unfold beamLoop
      simp only [hc]
      by_cases hstop : ef ≤ s.best.length ∧ ∃ w ∈ s.best.getLast?, w.1 < c.1
      · rw [if_pos hstop]
        exact hI
      · rw [if_neg hstop]
        refine ih _ (WInv_expand N ep ef fd (L.nbrs c.2) _ (fun x hx => hn c.2 x hx) ?_)
        obtain ⟨hvis, hnd, hbv, hbnd, hcv, hlo, hhi⟩ := hI
        exact ⟨hvis, hnd, hbv, hbnd,
          fun p hp => hcv p (by rw [hc]; exact List.mem_cons.2 (Or.inr hp)), hlo, hhi⟩

theorem WInv_init (N : List Nat) (ep ef : Nat) (fd : Nat → ℚ) (hef : 1 ≤ ef) :
    WInv N ep ef
      { cands := [(fd ep, ep)], best := [(fd ep, ep)].take ef, visited := [ep] } := by
  have htake : ([(fd ep, ep)].take ef) = [(fd ep, ep)] := by
    rcases ef with _ | ef
    · omega
    · simp
  refine ⟨?_, ?_, ?_, ?_, ?_, ?_, ?_⟩
  · simp
  · simp
  · rw [htake]
    simp
  · rw [htake]
    simp
  · simp
  · rw [htake]
    simp
  · rw [htake]
    simpa using hef

theorem beam_weak (L : Layer) (N : List Nat) (fd : Nat → ℚ) (ef ep : Nat)
    (hn : ∀ i j, j ∈ L.nbrs i → j ∈ N) (hef : 1 ≤ ef) :
    (∀ p ∈ L.beamSearch fd ef ep, p.2 = ep ∨ p.2 ∈ N)
    ∧ ((L.beamSearch fd ef ep).map Prod.snd).Nodup
    ∧ L.beamSearch fd ef ep ≠ [] := by
  have hI := WInv_loop L N ep ef fd hn (L.adj.length + 1) _ (WInv_init N ep ef fd hef)
  obtain ⟨hvis, _, hbv, hbnd, _, hlo, _⟩ := hI
  refine ⟨fun p hp => hvis p.2 (hbv p hp), hbnd, ?_⟩
  intro hnil
  unfold Layer.beamSearch at hnil
  rw [hnil] at hlo
  simp at hlo

/-- Strong invariant of the beam loop used for the completeness theorem:
`P` is the list of already-expanded nodes; pending candidates and expanded
nodes together enumerate the visited set exactly once; expanded nodes have
all neighbors visited; the visited set is a duplicate-free subset of `N`
containing the seed; and the best-set enumerates the visited distances. -/
def SInv (N : List Nat) (ep : Nat) (fd : Nat → ℚ) (s : BeamState)
    (P : List Nat) : Prop :=
  (s.cands.map Prod.snd ++ P).Perm s.visited
  ∧ s.visited.Nodup
  ∧ (∀ v ∈ s.visited, v ∈ N)
  ∧ ep ∈ s.visited
  ∧ s.best.Perm (s.visited.map fun n => (fd n, n))

/-- The expanded nodes `P` have every neighbor visited. -/
def BeamClosed (L : Layer) (P visited : List Nat) : Prop :=
  ∀ u ∈ P, ∀ j ∈ L.nbrs u, j ∈ visited

theorem beamExpand_cons_mem (fd : Nat → ℚ) (ef : Nat) (s : BeamState) (n : Nat)
    (rest : List Nat) (hv : n ∈ s.visited) :
    beamExpand fd ef s (n :: rest) = beamExpand fd ef s rest := by
  unfold beamExpand
  rw [List.foldl_cons, if_pos hv]

theorem beamExpand_cons_new (fd : Nat → ℚ) (ef : Nat) (s : BeamState) (n : Nat)
    (rest : List Nat) (hv : n ∉ s.visited) :
    beamExpand fd ef s (n :: rest)
      = beamExpand fd ef
          { cands := List.orderedInsert rankLE (fd n, n) s.cands,
            best := (List.orderedInsert rankLE (fd n, n) s.best).take ef,
            visited := n :: s.visited } rest := by
  unfold beamExpand
  rw [List.foldl_cons, if_neg hv]

theorem SInv_push (N : List Nat) (ep ef : Nat) (fd : Nat → ℚ)
    (s : BeamState) (P : List Nat) (n : Nat) (hN : N.Nodup) (hef : N.length ≤ ef)
    (hn : n ∈ N) (hv : n ∉ s.visited) (hI : SInv N ep fd s P) :
    SInv N ep fd
      { cands := List.orderedInsert rankLE (fd n, n) s.cands,
        best := (List.orderedInsert rankLE (fd n, n) s.best).take ef,
        visited := n :: s.visited } P := by
  obtain ⟨hperm, hnd, hsub, hepm, hbest⟩ := hI
  have hlenv : (n :: s.visited).length ≤ N.length :=
    (List.subperm_of_subset (List.nodup_cons.2 ⟨hv, hnd⟩)
      (fun x hx => by
        rcases List.mem_cons.1 hx with h | h
        · exact h ▸ hn
        · exact hsub x h)).length_le
  have hbl : (List.orderedInsert rankLE (fd n, n) s.best).length ≤ ef := by
    rw [(List.perm_orderedInsert rankLE _ s.best).length_eq, List.length_cons,
      hbest.length_eq, List.length_map]
    rw [List.length_cons] at hlenv
    omega
  refine ⟨?_, List.nodup_cons.2 ⟨hv, hnd⟩, ?_, List.mem_cons.2 (Or.inr hepm), ?_⟩
  · have h1 := ((List.perm_orderedInsert rankLE (fd n, n) s.cands).map Prod.snd).append_right P
    exact h1.trans (hperm.cons n)
  · intro v hvm
    rcases List.mem_cons.1 hvm with h | h
    · exact h ▸ hn
    · exact hsub v h
  · show (List.take ef (List.orderedInsert rankLE (fd n, n) s.best)).Perm
      ((n :: s.visited).map fun m => (fd m, m))
    rw [List.take_all_of_le hbl]
    exact (List.perm_orderedInsert rankLE _ s.best).trans (hbest.cons _)

theorem SInv_expand (N : List Nat) (ep ef : Nat) (fd : Nat → ℚ)
    (hN : N.Nodup) (hef : N.length ≤ ef) :
    ∀ (ns : List Nat) (s : BeamState) (P : List Nat), (∀ n ∈ ns, n ∈ N) →
      SInv N ep fd s P →
      SInv N ep fd (beamExpand fd ef s ns) P
        ∧ (∀ v ∈ s.visited, v ∈ (beamExpand fd ef s ns).visited)
        ∧ (∀ n ∈ ns, n ∈ (beamExpand fd ef s ns).visited)
        ∧ (beamExpand fd ef s ns).cands.length + s.visited.length
            = s.cands.length + (beamExpand fd ef s ns).visited.length := by
  intro ns
  induction ns with
  | nil =>
    intro s P _ hI
    exact ⟨hI, fun v hv => hv, by simp, rfl⟩
  | cons n rest ih =>
    intro s P hns hI
    by_cases hv : n ∈ s.visited
    · rw [beamExpand_cons_mem fd ef s n rest hv]
      obtain ⟨h1, h2, h3, h4⟩ := ih s P (fun x hx => hns x (List.mem_cons.2 (Or.inr hx))) hI
      refine ⟨h1, h2, ?_, h4⟩
      intro x hx
      rcases List.mem_cons.1 hx with h | h
      · exact h ▸ h2 n hv
      · exact h3 x h
    · rw [beamExpand_cons_new fd ef s n rest hv]
      have hpush := SInv_push N ep ef fd s P n hN hef
        (hns n (List.mem_cons_self n rest)) hv hI
      obtain ⟨h1, h2, h3, h4⟩ := ih _ P (fun x hx => hns x (List.mem_cons.2 (Or.inr hx))) hpush
      refine ⟨h1, ?_, ?_, ?_⟩
      · intro v hvm
        exact h2 v (List.mem_cons.2 (Or.inr hvm))
      · intro x hx
        rcases List.mem_cons.1 hx with h | h
        · exact h ▸ h2 n (List.mem_cons_self n s.visited)
        · exact h3 x h
      · simp only [List.length_cons] at h4
        rw [(List.perm_orderedInsert rankLE (fd n, n) s.cands).length_eq,
          List.length_cons] at h4
        omega

theorem visited_perm_of_closed (L : Layer) (N : List Nat) (ep : Nat) (fd : Nat → ℚ)
    (s : BeamState) (P : List Nat) (hN : N.Nodup)
    (hconn : ∀ n ∈ N, L.Reach ep n)
    (hI : SInv N ep fd s P) (hclo : BeamClosed L P s.visited)
    (hc : s.cands = []) : s.visited.Perm N := by
  obtain ⟨hperm, hnd, hsub, hepm, _⟩ := hI
  rw [hc] at hperm
  simp only [List.map_nil, List.nil_append] at hperm
  have hPv : ∀ u ∈ s.visited, ∀ j ∈ L.nbrs u, j ∈ s.visited := by
    intro u hu
    exact hclo u (hperm.mem_iff.2 hu)
  have hreach : ∀ m, L.Reach ep m → m ∈ s.visited := by
    intro m hm
    induction hm with
    | refl => exact hepm
    | step _ hv ih => exact hPv _ ih _ hv
  exact (List.subperm_of_subset hnd hsub).antisymm
    (List.subperm_of_subset hN fun n hn => hreach n (hconn n hn))

theorem visited_perm_of_full (N : List Nat) (s : BeamState) (hN : N.Nodup)
    (hnd : s.visited.Nodup) (hsub : ∀ v ∈ s.visited, v ∈ N)
    (hlen : N.length ≤ s.visited.length) : s.visited.Perm N :=
  (List.subperm_of_subset hnd hsub).perm_of_length_le hlen

theorem SInv_loop_complete (L : Layer) (N : List Nat) (ep ef : Nat) (fd : Nat → ℚ)
    (hN : N.Nodup) (hef : N.length ≤ ef)
    (hn : ∀ i j, j ∈ L.nbrs i → j ∈ N)
    (hconn : ∀ n ∈ N, L.Reach ep n) :
    ∀ (fuel : Nat) (s : BeamState) (P : List Nat),
      SInv N ep fd s P → BeamClosed L P s.visited →
      s.cands.length + (N.length - s.visited.length) ≤ fuel →
      (beamLoop L fd ef fuel s).best.Perm (N.map fun n => (fd n, n)) := by
  intro fuel
  induction fuel with
  | zero =>
    intro s P hI hclo hm
    have hc : s.cands = [] := by
      rcases hcs : s.cands with _ | ⟨c, rest⟩
      · rfl
      · rw [hcs] at hm
        simp at hm
    unfold beamLoop
    have hvp := visited_perm_of_closed L N ep fd s P hN hconn hI hclo hc
    exact hI.2.2.2.2.trans (hvp.map _)
  | succ fuel ih =>
    intro s P hI hclo hm
    rcases hc : s.cands with _ | ⟨c, rest⟩
    · unfold beamLoop
      simp only [hc]
      have hvp := visited_perm_of_closed L N ep fd s P hN hconn hI hclo hc
      exact hI.2.2.2.2.trans (hvp.map _)
    · unfold beamLoop
      simp only [hc]
      by_cases hstop : ef ≤ s.best.length ∧ ∃ w ∈ s.best.getLast?, w.1 < c.1
      · rw [if_pos hstop]
        have hbl : s.best.length = s.visited.length := by
          rw [hI.2.2.2.2.length_eq, List.length_map]
        have hstop1 := hstop.1
        have hvp : s.visited.Perm N := by
          refine visited_perm_of_full N s hN hI.2.1 hI.2.2.1 ?_
          omega
        exact hI.2.2.2.2.trans (hvp.map _)
      · rw [if_neg hstop]
        obtain ⟨hperm, hnd, hsub, hepm, hbest⟩ := hI
        have hc2 : c.2 ∈ s.visited := by
          apply hperm.mem_iff.1
          apply List.mem_append.2
          apply Or.inl
          rw [hc]
          exact List.mem_map_of_mem Prod.snd (List.mem_cons_self c rest)
        have hI1 : SInv N ep fd { s with cands := rest } (P ++ [c.2]) := by
          refine ⟨?_, hnd, hsub, hepm, hbest⟩
          have h1 : (rest.map Prod.snd ++ (P ++ [c.2])).Perm
              (c.2 :: (rest.map Prod.snd ++ P)) := by
            have hmid := @List.perm_middle Nat c.2 (rest.map Prod.snd ++ P)
              ([] : List Nat)
            simpa using hmid
          refine h1.trans ?_
          have h2 : (c.2 :: (rest.map Prod.snd ++ P)) = (s.cands.map Prod.snd ++ P) := by
            rw [hc]
            rfl
          rw [h2]
          exact hperm
        obtain ⟨hI2, hmono, hns, hlen⟩ := SInv_expand N ep ef fd hN hef (L.nbrs c.2)
          { s with cands := rest } (P ++ [c.2]) (fun x hx => hn c.2 x hx) hI1
        have hclo2 : BeamClosed L (P ++ [c.2])
            (beamExpand fd ef { s with cands := rest } (L.nbrs c.2)).visited := by
          intro u hu j hj
          rcases List.mem_append.1 hu with h | h
          · exact hmono j (hclo u h j hj)
          · rw [List.mem_singleton.1 h] at hj
            exact hns j hj
        refine ih _ (P ++ [c.2]) hI2 hclo2 ?_
        have hv2N := (List.subperm_of_subset hI2.2.1 hI2.2.2.1).length_le
        have hvv2 := (List.subperm_of_subset hnd
          (fun v hv => hmono v hv)).length_le
        rw [hc] at hm
        simp only [List.length_cons] at hm hlen ⊢
        omega

theorem beamSearch_complete (L : Layer) (N : List Nat) (fd : Nat → ℚ) (ef ep : Nat)
    (hN : N.Nodup) (hef : N.length ≤ ef) (hef1 : 1 ≤ ef)
    (hn : ∀ i j, j ∈ L.nbrs i → j ∈ N)
    (hconn : ∀ n ∈ N, L.Reach ep n)
    (hep : ep ∈ N) (hfuel : N.length ≤ L.adj.length + 1) :
    (L.beamSearch fd ef ep).Perm (N.map fun n => (fd n, n)) := by
  unfold Layer.beamSearch
  have htake : ([(fd ep, ep)].take ef) = [(fd ep, ep)] := by
    rcases ef with _ | ef
    · omega
    · simp
  refine SInv_loop_complete L N ep ef fd hN hef hn hconn (L.adj.length + 1)
    { cands := [(fd ep, ep)], best := [(fd ep, ep)].take ef, visited := [ep] } [] ?_ ?_ ?_
  · refine ⟨by simp, by simp, ?_, by simp, by rw [htake]; simp⟩
    intro v hv
    rw [List.mem_singleton.1 hv]
    exact hep
  · intro u hu
    simp at hu
  · simp only [List.length_cons, List.length_nil]
    omega

theorem lookup_eq_of_mem_nodup {β : Type} (l : List (Nat × β)) (p : Nat × β)
    (hmem : p ∈ l) (hnd : (l.map Prod.fst).Nodup) : List.lookup p.1 l = some p.2 := by
  induction l with
  | nil => simp at hmem
  | cons q rest ih =>
    rw [List.map_cons, List.nodup_cons] at hnd
    rcases List.mem_cons.1 hmem with h | h
    · rw [h, List.lookup, beq_self_eq_true]
    · have hne : p.1 ≠ q.1 := by
        intro he
        exact hnd.1 (he ▸ List.mem_map_of_mem Prod.fst h)
      rw [List.lookup, beq_eq_false_iff_ne.mpr hne]
      exact ih h hnd.2

/-- Neighbor-list-level well-formedness relative to the live set `N`:
duplicate-free nodes, and every neighbor list duplicate-free,
self-loop-free, and pointing into `N`. -/
def Layer.WfE (L : Layer) (N : List Nat) : Prop :=
  L.nodes.Nodup ∧ ∀ i, (L.nbrs i).Nodup ∧ i ∉ L.nbrs i ∧ ∀ j ∈ L.nbrs i, j ∈ N

theorem Layer.WfE.of_WfN (L : Layer) (N : List Nat) (h : L.WfN N) : L.WfE N := by
  refine ⟨h.1, fun i => ⟨Layer.nbrs_nodup_of_wf L N h i,
    Layer.nbrs_self_not_mem_of_wf L N h i, fun j hj => Layer.nbrs_mem_of_wf L N h i j hj⟩⟩

theorem Layer.WfN.of_WfE (L : Layer) (N : List Nat) (h : L.WfE N) : L.WfN N := by
  refine ⟨h.1, fun p hp => ?_⟩
  have hlk := lookup_eq_of_mem_nodup L.adj p hp h.1
  have hnb : L.nbrs p.1 = p.2 := by
    unfold Layer.nbrs
    rw [hlk]
    rfl
  obtain ⟨h1, h2, h3⟩ := h.2 p.1
  rw [hnb] at h1 h2 h3
  exact ⟨h1, h2, h3⟩

theorem Layer.WfE.widen (L : Layer) (N N' : List Nat) (h : L.WfE N)
    (hsub : ∀ x ∈ N, x ∈ N') : L.WfE N' :=
  ⟨h.1, fun i => ⟨(h.2 i).1, (h.2 i).2.1, fun j hj => hsub j ((h.2 i).2.2 j hj)⟩⟩

theorem Layer.nbrs_addEdge_self_mem (L : Layer) (i j : Nat) (hj : j ∈ L.nbrs i) :
    (L.addEdge i j).nbrs i = L.nbrs i := by
  unfold Layer.nbrs at hj ⊢
  rw [Layer.addEdge_adj, lookup_map_snd (fun a v => if a = i ∧ j ∉ v then v ++ [j] else v) i L.adj]
  rcases hv : List.lookup i L.adj with _ | v
  · rfl
  · rw [hv] at hj
    simp only [Option.getD_some] at hj
    simp [hj]

/-- The default (empty) layer is well-formed over any live set. -/
theorem Layer.WfE.empty (N : List Nat) : (default : Layer).WfE N := by
  refine ⟨by simp [Layer.nodes, default], fun i => ?_⟩
  have h : (default : Layer).nbrs i = [] := by
    unfold Layer.nbrs
    rfl
  rw [h]
  simp

theorem nodup_subset_length_le (l N : List Nat) (hnd : l.Nodup)
    (hsub : ∀ x ∈ l, x ∈ N) : l.length ≤ N.length :=
  (List.subperm_of_subset hnd hsub).length_le

theorem backEdgeStep_no_trim (dv : Nat → Nat → ℚ) (cap nid : Nat) (L : Layer) (s : Nat)
    (hcap : (L.nbrs s).length + 1 ≤ cap) :
    backEdgeStep dv cap nid L s = L.addEdge s nid := by
  unfold backEdgeStep
  rw [if_neg]
  intro hcontra
  by_cases hm : s ∈ L.nodes
  · by_cases hnb : nid ∈ L.nbrs s
    · rw [Layer.nbrs_addEdge_self_mem L s nid hnb] at hcontra
      omega
    · rw [Layer.nbrs_addEdge_self L s nid hm hnb] at hcontra
      rw [List.length_append] at hcontra
      simp at hcontra
      omega
  · have h1 : (L.addEdge s nid).nbrs s = [] := by
      apply Layer.nbrs_not_mem
      rw [Layer.nodes_addEdge]
      exact hm
    rw [h1] at hcontra
    simp at hcontra

theorem addEdge_fold (dv : Nat → Nat → ℚ) (cap nid : Nat) :
    ∀ (sel : List Nat) (L : Layer), sel.Nodup → nid ∉ sel →
      (∀ s ∈ sel, (L.nbrs s).length + 1 ≤ cap) →
      (sel.foldl (backEdgeStep dv cap nid) L).nodes = L.nodes
      ∧ (∀ u, u ∉ sel → (sel.foldl (backEdgeStep dv cap nid) L).nbrs u = L.nbrs u)
      ∧ (∀ s ∈ sel, (sel.foldl (backEdgeStep dv cap nid) L).nbrs s = L.nbrs s
          ∨ (sel.foldl (backEdgeStep dv cap nid) L).nbrs s = L.nbrs s ++ [nid])
      ∧ (∀ s ∈ sel, s ∈ L.nodes → nid ∉ L.nbrs s →
          nid ∈ (sel.foldl (backEdgeStep dv cap nid) L).nbrs s) := by
  intro sel
  induction sel with
  | nil =>
    intro L _ _ _
    exact ⟨rfl, fun u _ => rfl, fun s hs => absurd hs (List.not_mem_nil s),
      fun s hs => absurd hs (List.not_mem_nil s)⟩
  | cons s0 rest ih =>
    intro L hnd hnid hcap
    rw [List.foldl_cons, backEdgeStep_no_trim dv cap nid L s0
      (hcap s0 (List.mem_cons_self s0 rest))]
    have hs0rest : s0 ∉ rest := (List.nodup_cons.1 hnd).1
    have hnidrest : nid ∉ rest := fun h => hnid (List.mem_cons.2 (Or.inr h))
    have hL' : ∀ u, u ≠ s0 → (L.addEdge s0 nid).nbrs u = L.nbrs u :=
      fun u hu => Layer.nbrs_addEdge_ne L s0 nid u hu
    obtain ⟨h1, h2, h3, h4⟩ := ih (L.addEdge s0 nid) (List.nodup_cons.1 hnd).2 hnidrest
      (fun x hx => by
        rw [hL' x (fun he => hs0rest (he ▸ hx))]
        exact hcap x (List.mem_cons.2 (Or.inr hx)))
    refine ⟨h1.trans (Layer.nodes_addEdge L s0 nid), ?_, ?_, ?_⟩
    · intro u hu
      have hu0 : u ≠ s0 := fun he => hu (he ▸ List.mem_cons_self s0 rest)
      have hur : u ∉ rest := fun h => hu (List.mem_cons.2 (Or.inr h))
      rw [h2 u hur, hL' u hu0]
    · intro x hx
      rcases List.mem_cons.1 hx with h | h
      · subst h
        rw [h2 x hs0rest]
        by_cases hm : x ∈ L.nodes
        · by_cases hnb : nid ∈ L.nbrs x
          · rw [Layer.nbrs_addEdge_self_mem L x nid hnb]
            exact Or.inl rfl
          · rw [Layer.nbrs_addEdge_self L x nid hm hnb]
            exact Or.inr rfl
        · have hxe : (L.addEdge x nid).nbrs x = [] := by
            apply Layer.nbrs_not_mem
            rw [Layer.nodes_addEdge]
            exact hm
          rw [hxe, Layer.nbrs_not_mem L x hm]
          exact Or.inl rfl
      · rcases h3 x h with hc | hc
        · rw [hc, hL' x (fun he => hs0rest (he ▸ h))]
          exact Or.inl rfl
        · rw [hc, hL' x (fun he => hs0rest (he ▸ h))]
          exact Or.inr rfl
    · intro x hx hxm hxnb
      rcases List.mem_cons.1 hx with h | h
      · subst h
        rw [h2 x hs0rest, Layer.nbrs_addEdge_self L x nid hxm hxnb]
        exact List.mem_append.2 (Or.inr (List.mem_singleton.2 rfl))
      · apply h4 x h
        · rw [Layer.nodes_addEdge]
          exact hxm
        · rw [hL' x (fun he => hs0rest (he ▸ h))]
          exact hxnb

/-- The ids the insertion step selects as neighbors of the new node. -/
def layerSel (fd : Nat → ℚ) (dv : Nat → Nat → ℚ) (efc cap : Nat) (L : Layer)
    (ep : Nat) : List Nat :=
  (heuristicSelect dv cap (L.beamSearch fd efc ep)).map Prod.snd

/-- The layer produced by the per-layer insertion step. -/
def layerIns (fd : Nat → ℚ) (dv : Nat → Nat → ℚ) (efc cap nid : Nat) (L : Layer)
    (ep : Nat) : Layer :=
  (layerSel fd dv efc cap L ep).foldl (backEdgeStep dv cap nid)
    ((L.addNode nid).setNbrs nid (layerSel fd dv efc cap L ep))

theorem insertAtLayer_eq (fd : Nat → ℚ) (dv : Nat → Nat → ℚ) (efc nid : Nat)
    (layers : List Layer) (ep l : Nat) :
    insertAtLayer fd dv efc nid (layers, ep) l
      = (layers.set l
          (layerIns fd dv efc (layerCap l) nid (layers.getD l default) ep),
         (((layers.getD l default).beamSearch fd efc ep).head?.map Prod.snd).getD ep) :=
  rfl

theorem layerCap_ge (l : Nat) : 16 ≤ layerCap l := by
  unfold layerCap Mmax0 Mparam
  by_cases h : l = 0
  · rw [if_pos h]
    omega
  · rw [if_neg h]

theorem layerSel_spec (fd : Nat → ℚ) (dv : Nat → Nat → ℚ) (efc cap : Nat) (L : Layer)
    (ep : Nat) (N : List Nat)
    (hn : ∀ i j, j ∈ L.nbrs i → j ∈ N) (hep : ep ∈ N)
    (hefc : 1 ≤ efc) (hcap : 1 ≤ cap) :
    (∀ x ∈ layerSel fd dv efc cap L ep, x ∈ N)
    ∧ (layerSel fd dv efc cap L ep).Nodup
    ∧ layerSel fd dv efc cap L ep ≠ [] := by
  obtain ⟨hCmem, hCnd, hCne⟩ := beam_weak L N fd efc ep hn hefc
  refine ⟨?_, ?_, ?_⟩
  · intro x hx
    obtain ⟨p, hp, hpe⟩ := List.mem_map.1 hx
    rcases hCmem p (heuristicSelect_mem dv cap _ p hp) with h | h
    · exact hpe ▸ (h ▸ hep)
    · exact hpe ▸ h
  · have hs : List.Sublist ((heuristicSelect dv cap (L.beamSearch fd efc ep)).map Prod.snd)
        (((L.beamSearch fd efc ep).insertionSort rankLE).map Prod.snd) :=
      (heuristicSelect_sublist dv cap _).map Prod.snd
    refine hs.nodup ?_
    exact ((List.perm_insertionSort rankLE _).map Prod.snd).nodup_iff.2 hCnd
  · unfold layerSel
    intro hnil
    exact heuristicSelect_ne_nil dv cap _ hcap hCne (List.map_eq_nil.1 hnil)

theorem layerIns_spec (fd : Nat → ℚ) (dv : Nat → Nat → ℚ) (efc cap nid : Nat)
    (L : Layer) (ep : Nat) (N : List Nat)
    (hN : N.Nodup) (hNlen : N.length ≤ 4) (hnid : nid ∉ N)
    (hefc : 1 ≤ efc) (hcap : 16 ≤ cap) (hep : ep ∈ N)
    (hwf : L.WfE N) (hsub : ∀ x ∈ L.nodes, x ∈ N) :
    (layerIns fd dv efc cap nid L ep).WfE (N ++ [nid])
    ∧ (layerIns fd dv efc cap nid L ep).nodes = L.nodes ++ [nid]
    ∧ (layerIns fd dv efc cap nid L ep).nbrs nid = layerSel fd dv efc cap L ep
    ∧ (∀ u, u ∉ layerSel fd dv efc cap L ep → u ≠ nid →
        (layerIns fd dv efc cap nid L ep).nbrs u = L.nbrs u)
    ∧ (∀ s ∈ layerSel fd dv efc cap L ep,
        (layerIns fd dv efc cap nid L ep).nbrs s = L.nbrs s
        ∨ (layerIns fd dv efc cap nid L ep).nbrs s = L.nbrs s ++ [nid])
    ∧ (∀ s ∈ layerSel fd dv efc cap L ep, s ∈ L.nodes →
        nid ∈ (layerIns fd dv efc cap nid L ep).nbrs s) := by
  have hn : ∀ i j, j ∈ L.nbrs i → j ∈ N := fun i j hj => (hwf.2 i).2.2 j hj
  obtain ⟨hselN, hselnd, hselne⟩ :=
    layerSel_spec fd dv efc cap L ep N hn hep hefc (by omega)
  have hnidL : nid ∉ L.nodes := fun h => hnid (hsub nid h)
  have hnidsel : nid ∉ layerSel fd dv efc cap L ep := fun h => hnid (hselN nid h)
  have hL1nodes : ((L.addNode nid).setNbrs nid (layerSel fd dv efc cap L ep)).nodes
      = L.nodes ++ [nid] := by
    rw [Layer.nodes_setNbrs, Layer.nodes_addNode L nid hnidL]
  have hL1self : ((L.addNode nid).setNbrs nid (layerSel fd dv efc cap L ep)).nbrs nid
      = layerSel fd dv efc cap L ep := by
    apply Layer.nbrs_setNbrs_self
    rw [Layer.nodes_addNode L nid hnidL]
    exact List.mem_append.2 (Or.inr (List.mem_singleton.2 rfl))
  have hL1ne : ∀ u, u ≠ nid →
      ((L.addNode nid).setNbrs nid (layerSel fd dv efc cap L ep)).nbrs u = L.nbrs u := by
    intro u hu
    rw [Layer.nbrs_setNbrs_ne _ nid u _ hu, Layer.nbrs_addNode_ne L nid u hu]
  have hbound : ∀ s ∈ layerSel fd dv efc cap L ep,
      (((L.addNode nid).setNbrs nid (layerSel fd dv efc cap L ep)).nbrs s).length + 1
        ≤ cap := by
    intro s hs
    have hsnid : s ≠ nid := fun he => hnidsel (he ▸ hs)
    rw [hL1ne s hsnid]
    have hlen := nodup_subset_length_le (L.nbrs s) N (hwf.2 s).1 (fun j hj => hn s j hj)
    omega
  obtain ⟨hfn, hfu, hfs, hfm⟩ := addEdge_fold dv cap nid (layerSel fd dv efc cap L ep)
    ((L.addNode nid).setNbrs nid (layerSel fd dv efc cap L ep)) hselnd hnidsel hbound
  have hnodes : (layerIns fd dv efc cap nid L ep).nodes = L.nodes ++ [nid] := by
    unfold layerIns
    rw [hfn, hL1nodes]
  have hself : (layerIns fd dv efc cap nid L ep).nbrs nid
      = layerSel fd dv efc cap L ep := by
    unfold layerIns
    rw [hfu nid hnidsel, hL1self]
  have hother : ∀ u, u ∉ layerSel fd dv efc cap L ep → u ≠ nid →
      (layerIns fd dv efc cap nid L ep).nbrs u = L.nbrs u := by
    intro u hu1 hu2
    unfold layerIns
    rw [hfu u hu1, hL1ne u hu2]
  have hsel2 : ∀ s ∈ layerSel fd dv efc cap L ep,
      (layerIns fd dv efc cap nid L ep).nbrs s = L.nbrs s
      ∨ (layerIns fd dv efc cap nid L ep).nbrs s = L.nbrs s ++ [nid] := by
    intro s hs
    have hsnid : s ≠ nid := fun he => hnidsel (he ▸ hs)
    have := hfs s hs
    rw [hL1ne s hsnid] at this
    exact this
  have hmem2 : ∀ s ∈ layerSel fd dv efc cap L ep, s ∈ L.nodes →
      nid ∈ (layerIns fd dv efc cap nid L ep).nbrs s := by
    intro s hs hsm
    have hsnid : s ≠ nid := fun he => hnidsel (he ▸ hs)
    apply hfm s hs
    · rw [hL1nodes]
      exact List.mem_append.2 (Or.inl hsm)
    · rw [hL1ne s hsnid]
      intro hc
      exact hnid (hn s nid hc)
  refine ⟨⟨?_, ?_⟩, hnodes, hself, hother, hsel2, hmem2⟩
  · rw [hnodes]
    refine List.Nodup.append hwf.1 (List.nodup_singleton nid) ?_
    intro x hx1 hx2
    rw [List.mem_singleton.1 hx2] at hx1
    exact hnidL hx1
  · intro i
    by_cases hi : i = nid
    · subst hi
      rw [hself]
      exact ⟨hselnd, hnidsel, fun j hj => List.mem_append.2 (Or.inl (hselN j hj))⟩
    · by_cases his : i ∈ layerSel fd dv efc cap L ep
      · rcases hsel2 i his with hc | hc
        · rw [hc]
          exact ⟨(hwf.2 i).1, (hwf.2 i).2.1,
            fun j hj => List.mem_append.2 (Or.inl (hn i j hj))⟩
        · rw [hc]
          refine ⟨?_, ?_, ?_⟩
          · refine List.Nodup.append (hwf.2 i).1 (List.nodup_singleton nid) ?_
            intro x hx1 hx2
            rw [List.mem_singleton.1 hx2] at hx1
            exact hnid (hn i nid hx1)
          · intro hc2
            rcases List.mem_append.1 hc2 with h | h
            · exact (hwf.2 i).2.1 h
            · exact hi (List.mem_singleton.1 h)
          · intro j hj
            rcases List.mem_append.1 hj with h | h
            · exact List.mem_append.2 (Or.inl (hn i j h))
            · exact List.mem_append.2 (Or.inr h)
      · rw [hother i his hi]
        exact ⟨(hwf.2 i).1, (hwf.2 i).2.1,
          fun j hj => List.mem_append.2 (Or.inl (hn i j hj))⟩

theorem layerIns_sym_reach (fd : Nat → ℚ) (dv : Nat → Nat → ℚ) (efc cap nid : Nat)
    (L : Layer) (ep : Nat) (N : List Nat) (e : Nat)
    (hN : N.Nodup) (hNlen : N.length ≤ 4) (hnid : nid ∉ N)
    (hefc : 1 ≤ efc) (hcap : 16 ≤ cap) (hep : ep ∈ N)
    (hwf : L.WfE N) (hsub : ∀ x ∈ L.nodes, x ∈ N)
    (hNsub : ∀ x ∈ N, x ∈ L.nodes) (hsym : L.Sym)
    (hreach : ∀ n ∈ N, L.Reach e n) :
    (layerIns fd dv efc cap nid L ep).Sym
    ∧ (∀ n, n ∈ N ∨ n = nid → (layerIns fd dv efc cap nid L ep).Reach e n)
    ∧ (∀ x, x ∈ N ∨ x = nid → x ∈ (layerIns fd dv efc cap nid L ep).nodes) := by
  have hn : ∀ i j, j ∈ L.nbrs i → j ∈ N := fun i j hj => (hwf.2 i).2.2 j hj
  obtain ⟨hselN, hselnd, hselne⟩ := layerSel_spec fd dv efc cap L ep N hn hep hefc (by omega)
  have hnidL : nid ∉ L.nodes := fun h => hnid (hsub nid h)
  obtain ⟨hwf2, hnodes, hself, hother, hsel2, hmem2⟩ :=
    layerIns_spec fd dv efc cap nid L ep N hN hNlen hnid hefc hcap hep hwf hsub
  have hsup : ∀ u, u ≠ nid → ∀ x ∈ L.nbrs u, x ∈ (layerIns fd dv efc cap nid L ep).nbrs u := by
    intro u hu x hx
    by_cases hus : u ∈ layerSel fd dv efc cap L ep
    · rcases hsel2 u hus with hc | hc
      · rw [hc]
        exact hx
      · rw [hc]
        exact List.mem_append.2 (Or.inl hx)
    · rw [hother u hus hu]
      exact hx
  have hmono : ∀ u x, x ∈ L.nbrs u → x ∈ (layerIns fd dv efc cap nid L ep).nbrs u := by
    intro u x hx
    by_cases hu : u = nid
    · rw [hu, Layer.nbrs_not_mem L nid hnidL] at hx
      simp at hx
    · exact hsup u hu x hx
  refine ⟨?_, ?_, ?_⟩
  · intro i j hj
    by_cases hi : i = nid
    · rw [hi] at hj ⊢
      rw [hself] at hj
      exact hmem2 j hj (hNsub j (hselN j hj))
    · have hj2 : j ∈ L.nbrs i ∨ j = nid := by
        by_cases his : i ∈ layerSel fd dv efc cap L ep
        · rcases hsel2 i his with hc | hc
          · rw [hc] at hj
            exact Or.inl hj
          · rw [hc] at hj
            rcases List.mem_append.1 hj with h | h
            · exact Or.inl h
            · exact Or.inr (List.mem_singleton.1 h)
        · rw [hother i his hi] at hj
          exact Or.inl hj
      rcases hj2 with h | h
      · have hjN : j ∈ N := hn i j h
        have hjnid : j ≠ nid := fun he => hnid (he ▸ hjN)
        exact hsup j hjnid i (hsym i j h)
      · rw [h, hself]
        by_cases his : i ∈ layerSel fd dv efc cap L ep
        · exact his
        · exfalso
          rw [h, hother i his hi] at hj
          exact hnid (hn i nid hj)
  · intro n hnn
    rcases hnn with h | h
    · exact Layer.Reach.mono L _ e n hmono (hreach n h)
    · rw [h]
      obtain ⟨s0, hs0⟩ := List.exists_mem_of_ne_nil _ hselne
      have hs0N : s0 ∈ N := hselN s0 hs0
      refine Layer.Reach.step (Layer.Reach.mono L _ e s0 hmono (hreach s0 hs0N)) ?_
      exact hmem2 s0 hs0 (hNsub s0 hs0N)
  · intro x hx
    rw [hnodes]
    rcases hx with h | h
    · exact List.mem_append.2 (Or.inl (hNsub x h))
    · exact List.mem_append.2 (Or.inr (List.mem_singleton.2 h))

theorem getD_set_ne_layer (l : List Layer) (i j : Nat) (a : Layer) (h : i ≠ j) :
    (l.set i a).getD j default = l.getD j default := by
  show ((l.set i a).get? j).getD _ = (l.get? j).getD _
  rw [List.get?_set_ne a l h]

/-- A layer acceptable for the graph invariant: well-formed over `N` with
nodes drawn from `N`. -/
def LayerOk (L : Layer) (N : List Nat) : Prop :=
  L.WfE N ∧ ∀ x ∈ L.nodes, x ∈ N

theorem newEp_mem (L : Layer) (N : List Nat) (fd : Nat → ℚ) (efc ep : Nat)
    (hn : ∀ i j, j ∈ L.nbrs i → j ∈ N) (hefc : 1 ≤ efc) (hep : ep ∈ N) :
    (((L.beamSearch fd efc ep).head?.map Prod.snd).getD ep) ∈ N := by
  obtain ⟨hCmem, _, _⟩ := beam_weak L N fd efc ep hn hefc
  rcases hh : (L.beamSearch fd efc ep).head? with _ | c
  · simpa using hep
  · rcases hCmem c (List.mem_of_mem_head? hh) with h | h
    · simpa [h] using hep
    · simpa using h

theorem phaseA (fd : Nat → ℚ) (dv : Nat → Nat → ℚ) (efc nid : Nat) (N : List Nat)
    (hN : N.Nodup) (hNlen : N.length ≤ 4) (hnid : nid ∉ N) (hefc : 1 ≤ efc) :
    ∀ (idxs : List Nat) (layers : List Layer) (ep : Nat),
      idxs.Nodup → (∀ i ∈ idxs, 1 ≤ i) → ep ∈ N →
      (∀ L ∈ layers, LayerOk L (N ++ [nid])) →
      (∀ i ∈ idxs, (layers.getD i default).WfE N
        ∧ ∀ x ∈ (layers.getD i default).nodes, x ∈ N) →
      (idxs.foldl (insertAtLayer fd dv efc nid) (layers, ep)).2 ∈ N
      ∧ (idxs.foldl (insertAtLayer fd dv efc nid) (layers, ep)).1.length = layers.length
      ∧ (idxs.foldl (insertAtLayer fd dv efc nid) (layers, ep)).1.getD 0 default
          = layers.getD 0 default
      ∧ (∀ L ∈ (idxs.foldl (insertAtLayer fd dv efc nid) (layers, ep)).1,
          LayerOk L (N ++ [nid])) := by
  intro idxs
  induction idxs with
  | nil =>
    intro layers ep _ _ hep hok _
    exact ⟨hep, rfl, rfl, hok⟩
  | cons l rest ih =>
    intro layers ep hnd hge hep hok hstrict
    rw [List.foldl_cons, insertAtLayer_eq]
    have hl1 : 1 ≤ l := hge l (List.mem_cons_self l rest)
    obtain ⟨hwfL, hsubL⟩ := hstrict l (List.mem_cons_self l rest)
    have hn : ∀ i j, j ∈ (layers.getD l default).nbrs i → j ∈ N :=
      fun i j hj => (hwfL.2 i).2.2 j hj
    obtain ⟨hinswf, hinsnodes, _, _, _, _⟩ :=
      layerIns_spec fd dv efc (layerCap l) nid (layers.getD l default) ep N
        hN hNlen hnid hefc (layerCap_ge l) hep hwfL hsubL
    have hok2 : ∀ L ∈ layers.set l
        (layerIns fd dv efc (layerCap l) nid (layers.getD l default) ep),
        LayerOk L (N ++ [nid]) := by
      intro L hL
      rcases List.mem_or_eq_of_mem_set hL with h | h
      · exact hok L h
      · refine h ▸ ⟨hinswf, ?_⟩
        rw [hinsnodes]
        intro x hx
        rcases List.mem_append.1 hx with h2 | h2
        · exact List.mem_append.2 (Or.inl (hsubL x h2))
        · exact List.mem_append.2 (Or.inr h2)
    have hstrict2 : ∀ i ∈ rest,
        ((layers.set l (layerIns fd dv efc (layerCap l) nid (layers.getD l default) ep)).getD
            i default).WfE N
        ∧ ∀ x ∈ ((layers.set l
            (layerIns fd dv efc (layerCap l) nid (layers.getD l default) ep)).getD
            i default).nodes, x ∈ N := by
      intro i hi
      have hil : l ≠ i := fun he => (List.nodup_cons.1 hnd).1 (he ▸ hi)
      rw [getD_set_ne_layer layers l i _ hil]
      exact hstrict i (List.mem_cons.2 (Or.inr hi))
    obtain ⟨ha, hb, hc, hd⟩ := ih _ _ (List.nodup_cons.1 hnd).2
      (fun i hi => hge i (List.mem_cons.2 (Or.inr hi)))
      (newEp_mem _ N fd efc ep hn hefc hep) hok2 hstrict2
    refine ⟨ha, ?_, ?_, hd⟩
    · rw [hb, List.length_set]
    · rw [hc, getD_set_ne_layer layers l 0 _ (by omega)]

theorem getD_mem_of_lt (l : List Layer) (i : Nat) (h : i < l.length) :
    l.getD i default ∈ l := by
  rcases hq : l.get? i with _ | v
  · rw [List.get?_eq_none] at hq
    omega
  · have hv : l.getD i default = v := by
      show (l.get? i).getD _ = v
      rw [hq]
      rfl
    rw [hv]
    exact List.get?_mem hq

theorem getD_oob (l : List Layer) (i : Nat) (h : l.length ≤ i) :
    l.getD i default = default := by
  show (l.get? i).getD _ = _
  rw [List.get?_eq_none.2 h]
  rfl

theorem getD_set_self_layer (l : List Layer) (i : Nat) (a : Layer) (h : i < l.length) :
    (l.set i a).getD i default = a := by
  show ((l.set i a).get? i).getD _ = a
  rw [List.get?_set_eq_of_lt a h]
  rfl

theorem default_nbrs (i : Nat) : (default : Layer).nbrs i = [] := rfl

/-- The graph invariant maintained by the insertion procedure on small
collections: an empty graph carries no live IDs; otherwise the entry point
is live, every layer is acceptable over the live set, and layer 0 carries
every live ID, is symmetric, and reaches every live ID from the entry. -/
def GI (g : Graph) (N : List Nat) : Prop :=
  match g.entry with
  | none => g.layers = [] ∧ N = []
  | some e =>
      e ∈ N
      ∧ g.layers ≠ []
      ∧ (∀ L ∈ g.layers, LayerOk L N)
      ∧ (∀ x ∈ N, x ∈ (g.layers.getD 0 default).nodes)
      ∧ (g.layers.getD 0 default).Sym
      ∧ (∀ n ∈ N, (g.layers.getD 0 default).Reach e n)

theorem GI_emptyGraph : GI Graph.emptyGraph [] := ⟨rfl, rfl⟩

theorem LayerOk.emptyOk (N : List Nat) : LayerOk (default : Layer) N := by
  refine ⟨Layer.WfE.empty N, ?_⟩
  intro x hx
  have hadj : (default : Layer).adj = [] := rfl
  simp [Layer.nodes, hadj] at hx

theorem Layer.addNode_of_mem (L : Layer) (i : Nat) (h : i ∈ L.nodes) :
    L.addNode i = L := by
  unfold Layer.addNode
  rw [if_pos h]

theorem LayerOk.addNodeOk (L : Layer) (N' : List Nat) (nid : Nat)
    (h : LayerOk L N') (hnid : nid ∈ N') : LayerOk (L.addNode nid) N' := by
  by_cases hm : nid ∈ L.nodes
  · rw [Layer.addNode_of_mem L nid hm]
    exact h
  · refine ⟨⟨?_, ?_⟩, ?_⟩
    · rw [Layer.nodes_addNode L nid hm]
      refine List.Nodup.append h.1.1 (List.nodup_singleton nid) ?_
      intro x hx1 hx2
      rw [List.mem_singleton.1 hx2] at hx1
      exact hm hx1
    · intro i
      by_cases hi : i = nid
      · rw [hi, Layer.nbrs_addNode_self L nid hm]
        simp
      · rw [Layer.nbrs_addNode_ne L nid i hi]
        exact h.1.2 i
    · intro x hx
      rw [Layer.nodes_addNode L nid hm] at hx
      rcases List.mem_append.1 hx with h2 | h2
      · exact h.2 x h2
      · exact (List.mem_singleton.1 h2) ▸ hnid

theorem greedyDescent_mem (fd : Nat → ℚ) (layers : List Layer) (lvl Ltop ep0 : Nat)
    (N : List Nat) (hlayers : ∀ L ∈ layers, ∀ i j, j ∈ L.nbrs i → j ∈ N)
    (hep : ep0 ∈ N) : greedyDescent fd layers lvl Ltop ep0 ∈ N := by
  unfold greedyDescent
  generalize (List.range' (lvl + 1) (Ltop - lvl)).reverse = idxs
  induction idxs generalizing ep0 with
  | nil => exact hep
  | cons l rest ih =>
    rw [List.foldl_cons]
    apply ih
    apply greedy_mem _ fd N ?_ _ _ hep
    intro i j hj
    by_cases hl : l < layers.length
    · exact hlayers _ (getD_mem_of_lt layers l hl) i j hj
    · rw [getD_oob layers l (by omega), default_nbrs] at hj
      exact absurd hj (List.not_mem_nil j)

theorem extendNode_spec (nid : Nat) (N' : List Nat) (hnid : nid ∈ N') :
    ∀ (idxs : List Nat) (ls : List Layer), (∀ i ∈ idxs, 1 ≤ i) →
      (∀ L ∈ ls, LayerOk L N') →
      (∀ L ∈ extendNode nid idxs ls, LayerOk L N')
      ∧ (extendNode nid idxs ls).getD 0 default = ls.getD 0 default
      ∧ (extendNode nid idxs ls).length = ls.length := by
  intro idxs
  induction idxs with
  | nil =>
    intro ls _ hok
    exact ⟨hok, rfl, rfl⟩
  | cons l rest ih =>
    intro ls hge hok
    have hl1 : 1 ≤ l := hge l (List.mem_cons_self l rest)
    have hokl : LayerOk (ls.getD l default) N' := by
      by_cases hl : l < ls.length
      · exact hok _ (getD_mem_of_lt ls l hl)
      · rw [getD_oob ls l (by omega)]
        exact LayerOk.emptyOk N'
    have hok2 : ∀ L ∈ ls.set l ((ls.getD l default).addNode nid), LayerOk L N' := by
      intro L hL
      rcases List.mem_or_eq_of_mem_set hL with h | h
      · exact hok L h
      · exact h ▸ LayerOk.addNodeOk _ N' nid hokl hnid
    have hstep : extendNode nid (l :: rest) ls
        = extendNode nid rest (ls.set l ((ls.getD l default).addNode nid)) := by
      unfold extendNode
      rw [List.foldl_cons]
    rw [hstep]
    obtain ⟨ha, hb, hc⟩ := ih _ (fun i hi => hge i (List.mem_cons.2 (Or.inr hi))) hok2
    refine ⟨ha, ?_, ?_⟩
    · rw [hb, getD_set_ne_layer ls l 0 _ (by omega)]
    · rw [hc, List.length_set]

theorem singleton_layer_nbrs (nid i : Nat) : (⟨[(nid, [])]⟩ : Layer).nbrs i = [] := by
  unfold Layer.nbrs
  rcases h : List.lookup i [(nid, [])] with _ | v
  · rfl
  · rw [List.lookup] at h
    rcases hb : (i == nid) with _ | _
    · rw [hb] at h
      simp [List.lookup] at h
    · rw [hb] at h
      simp at h
      rw [h]
      rfl

theorem LayerOk_mono (L : Layer) (N N' : List Nat) (h : LayerOk L N)
    (hsub : ∀ x ∈ N, x ∈ N') : LayerOk L N' :=
  ⟨Layer.WfE.widen L N N' h.1 hsub, fun x hx => hsub x (h.2 x hx)⟩

theorem GI_intro (ls : List Layer) (e : Nat) (N' : List Nat)
    (h1 : e ∈ N') (h2 : ls ≠ []) (h3 : ∀ L ∈ ls, LayerOk L N')
    (h4 : ∀ x ∈ N', x ∈ (ls.getD 0 default).nodes) (h5 : (ls.getD 0 default).Sym)
    (h6 : ∀ n ∈ N', (ls.getD 0 default).Reach e n) : GI ⟨ls, some e⟩ N' :=
  ⟨h1, h2, h3, h4, h5, h6⟩

theorem GI_insert (g : Graph) (N : List Nat) (fd : Nat → ℚ) (dv : Nat → Nat → ℚ)
    (efc nid lvl : Nat) (hGI : GI g N) (hN : N.Nodup) (hNlen : N.length ≤ 4)
    (hnid : nid ∉ N) (hefc : 1 ≤ efc) :
    GI (g.insert fd dv efc nid lvl) (N ++ [nid]) := by
  rcases g with ⟨layers, entry⟩
  rcases entry with _ | e0
  · obtain ⟨hl, hn0⟩ := hGI
    show GI ⟨List.replicate (lvl + 1) ⟨[(nid, [])]⟩, some nid⟩ (N ++ [nid])
    rw [hn0]
    have hokone : LayerOk (⟨[(nid, [])]⟩ : Layer) ([] ++ [nid]) := by
      refine ⟨⟨by simp [Layer.nodes], fun i => ?_⟩, ?_⟩
      · rw [singleton_layer_nbrs]
        simp
      · intro x hx
        simp [Layer.nodes] at hx
        simp [hx]
    refine ⟨by simp, by simp, ?_, ?_, ?_, ?_⟩
    · intro L hL
      rw [List.eq_of_mem_replicate hL]
      exact hokone
    · intro x hx
      simp only [List.nil_append, List.mem_singleton] at hx
      have h0 : (List.replicate (lvl + 1) (⟨[(nid, [])]⟩ : Layer)).getD 0 default
          = ⟨[(nid, [])]⟩ := by
        rw [List.replicate_succ]
        rfl
      rw [h0, hx]
      simp [Layer.nodes]
    · have h0 : (List.replicate (lvl + 1) (⟨[(nid, [])]⟩ : Layer)).getD 0 default
          = ⟨[(nid, [])]⟩ := by
        rw [List.replicate_succ]
        rfl
      rw [h0]
      intro i j hj
      rw [singleton_layer_nbrs] at hj
      exact absurd hj (List.not_mem_nil j)
    · intro n hnm
      simp only [List.nil_append, List.mem_singleton] at hnm
      rw [hnm]
      exact Layer.Reach.refl
  · obtain ⟨he0, hlne, hok, hNsub0, hsym0, hreach0⟩ := hGI
    rcases hlayers : layers with _ | ⟨L0, restL⟩
    · exact absurd hlayers hlne
    subst hlayers
    show GI
      ⟨(fun st : List Layer × Nat =>
          if (L0 :: restL).length - 1 < lvl then
            extendNode nid
              (List.range' ((L0 :: restL).length - 1 + 1) (lvl - ((L0 :: restL).length - 1)))
              st.1
          else st.1)
        (((List.range (min lvl ((L0 :: restL).length - 1) + 1)).reverse).foldl
          (insertAtLayer fd dv efc nid)
          ((L0 :: restL) ++ List.replicate (lvl + 1 - (L0 :: restL).length) default,
           greedyDescent fd (L0 :: restL) lvl ((L0 :: restL).length - 1) e0)),
       if (L0 :: restL).length - 1 < lvl then some nid else some e0⟩
      (N ++ [nid])
    have hokMono : ∀ L, LayerOk L N → LayerOk L (N ++ [nid]) :=
      fun L h => LayerOk_mono L N _ h (fun x hx => List.mem_append.2 (Or.inl hx))
    have hstrictAll : ∀ i,
        (((L0 :: restL) ++ List.replicate (lvl + 1 - (L0 :: restL).length) default).getD
            i default).WfE N
        ∧ ∀ x ∈ (((L0 :: restL) ++
            List.replicate (lvl + 1 - (L0 :: restL).length) default).getD i default).nodes,
            x ∈ N := by
      intro i
      by_cases hi : i < ((L0 :: restL) ++
          List.replicate (lvl + 1 - (L0 :: restL).length) default).length
      · have hmem := getD_mem_of_lt _ i hi
        rcases List.mem_append.1 hmem with h | h
        · exact ⟨(hok _ h).1, (hok _ h).2⟩
        · rw [List.eq_of_mem_replicate h]
          exact ⟨(LayerOk.emptyOk N).1, (LayerOk.emptyOk N).2⟩
      · rw [getD_oob _ i (by omega)]
        exact ⟨(LayerOk.emptyOk N).1, (LayerOk.emptyOk N).2⟩
    have hok1 : ∀ L ∈ (L0 :: restL) ++
        List.replicate (lvl + 1 - (L0 :: restL).length) default, LayerOk L (N ++ [nid]) := by
      intro L hL
      rcases List.mem_append.1 hL with h | h
      · exact hokMono L (hok L h)
      · rw [List.eq_of_mem_replicate h]
        exact LayerOk.emptyOk _
    have hep1 : greedyDescent fd (L0 :: restL) lvl ((L0 :: restL).length - 1) e0 ∈ N := by
      apply greedyDescent_mem fd _ lvl _ e0 N ?_ he0
      intro L hL i j hj
      exact ((hok L hL).1.2 i).2.2 j hj
    have hsplit : (List.range (min lvl ((L0 :: restL).length - 1) + 1)).reverse
        = (List.range' 1 (min lvl ((L0 :: restL).length - 1))).reverse ++ [0] := by
      rw [List.range_eq_range']
      rw [show List.range' 0 (min lvl ((L0 :: restL).length - 1) + 1)
          = 0 :: List.range' 1 (min lvl ((L0 :: restL).length - 1)) from rfl]
      rw [List.reverse_cons]
    rw [hsplit, List.foldl_append, List.foldl_cons, List.foldl_nil]
    obtain ⟨hA1, hA2, hA3, hA4⟩ := phaseA fd dv efc nid N hN hNlen hnid hefc
      ((List.range' 1 (min lvl ((L0 :: restL).length - 1))).reverse)
      ((L0 :: restL) ++ List.replicate (lvl + 1 - (L0 :: restL).length) default)
      (greedyDescent fd (L0 :: restL) lvl ((L0 :: restL).length - 1) e0)
      (List.nodup_reverse.2 (by simp [List.nodup_range']))
      (by
        intro i hi
        rw [List.mem_reverse] at hi
        exact (List.mem_range'_1.1 hi).1)
      hep1 hok1 (fun i _ => hstrictAll i)
    set stA := ((List.range' 1 (min lvl ((L0 :: restL).length - 1))).reverse).foldl
      (insertAtLayer fd dv efc nid)
      ((L0 :: restL) ++ List.replicate (lvl + 1 - (L0 :: restL).length) default,
       greedyDescent fd (L0 :: restL) lvl ((L0 :: restL).length - 1) e0) with hstA
    have hget0 : stA.1.getD 0 default = L0 := by
      rw [hA3]
      rfl
    have hlen1 : 1 ≤ stA.1.length := by
      rw [hA2]
      simp
    rw [insertAtLayer_eq, hget0]
    set Lnew := layerIns fd dv efc (layerCap 0) nid L0 stA.2 with hLnew
    obtain ⟨hwfNew, hnodesNew, _, _, _, _⟩ :=
      layerIns_spec fd dv efc (layerCap 0) nid L0 stA.2 N hN hNlen hnid hefc
        (layerCap_ge 0) hA1 (hok L0 (List.mem_cons_self L0 restL)).1
        (hok L0 (List.mem_cons_self L0 restL)).2
    obtain ⟨hsymNew, hreachNew, hnodesNew2⟩ :=
      layerIns_sym_reach fd dv efc (layerCap 0) nid L0 stA.2 N e0 hN hNlen hnid hefc
        (layerCap_ge 0) hA1 (hok L0 (List.mem_cons_self L0 restL)).1
        (hok L0 (List.mem_cons_self L0 restL)).2 hNsub0 hsym0 hreach0
    have hokNew : LayerOk Lnew (N ++ [nid]) := by
      refine ⟨hwfNew, ?_⟩
      intro x hx
      rw [hnodesNew] at hx
      rcases List.mem_append.1 hx with h | h
      · exact List.mem_append.2 (Or.inl ((hok L0 (List.mem_cons_self L0 restL)).2 x h))
      · exact List.mem_append.2 (Or.inr h)
    have hokSet : ∀ L ∈ stA.1.set 0 Lnew, LayerOk L (N ++ [nid]) := by
      intro L hL
      rcases List.mem_or_eq_of_mem_set hL with h | h
      · exact hA4 L h
      · exact h ▸ hokNew
    have hget0set : (stA.1.set 0 Lnew).getD 0 default = Lnew :=
      getD_set_self_layer stA.1 0 Lnew (by omega)
    have hlenset : (stA.1.set 0 Lnew).length = stA.1.length := List.length_set stA.1 0 Lnew
    have hmemN' : ∀ x, x ∈ N ∨ x = nid → x ∈ N ++ [nid] := by
      intro x hx
      rcases hx with h | h
      · exact List.mem_append.2 (Or.inl h)
      · exact List.mem_append.2 (Or.inr (List.mem_singleton.2 h))
    have hmemN'2 : ∀ x ∈ N ++ [nid], x ∈ N ∨ x = nid := by
      intro x hx
      rcases List.mem_append.1 hx with h | h
      · exact Or.inl h
      · exact Or.inr (List.mem_singleton.1 h)
    by_cases hTL : (L0 :: restL).length - 1 < lvl
    · simp only [if_pos hTL]
      obtain ⟨hE1, hE2, hE3⟩ := extendNode_spec nid (N ++ [nid])
        (List.mem_append.2 (Or.inr (List.mem_singleton.2 rfl)))
        (List.range' ((L0 :: restL).length - 1 + 1) (lvl - ((L0 :: restL).length - 1)))
        (stA.1.set 0 Lnew)
        (by
          intro i hi
          have := (List.mem_range'_1.1 hi).1
          omega)
        hokSet
      refine GI_intro _ _ _
        (List.mem_append.2 (Or.inr (List.mem_singleton.2 rfl))) ?_ hE1 ?_ ?_ ?_
      · intro hcon
        have := hE3
        rw [hcon] at this
        simp only [List.length_nil] at this
        omega
      · intro x hx
        rw [hE2, hget0set]
        exact hnodesNew2 x (hmemN'2 x hx)
      · rw [hE2, hget0set]
        exact hsymNew
      · intro n hnm
        rw [hE2, hget0set]
        have hrnid : Lnew.Reach e0 nid := hreachNew nid (Or.inr rfl)
        have hrn : Lnew.Reach e0 n := hreachNew n (hmemN'2 n hnm)
        exact Layer.Reach.trans Lnew nid e0 n
          (Layer.Reach.symm Lnew e0 nid hsymNew hrnid) hrn
    · simp only [if_neg hTL]
      refine GI_intro _ _ _ (List.mem_append.2 (Or.inl he0)) ?_ hokSet ?_ ?_ ?_
      · intro hcon
        rw [hcon] at hlenset
        simp only [List.length_nil] at hlenset
        omega
      · intro x hx
        rw [hget0set]
        exact hnodesNew2 x (hmemN'2 x hx)
      · rw [hget0set]
        exact hsymNew
      · intro n hnm
        rw [hget0set]
        exact hreachNew n (hmemN'2 n hnm)

theorem insert_ok_parts (c : Collection) (r : Record) (v : VectorID) (c' : Collection)
    (h : c.insert r = .ok (v, c')) :
    c'.config = c.config ∧ c'.relevancy = c.relevancy
    ∧ ∃ fd dv lvl, c'.graph
        = c.graph.insert fd dv c.config.ef_construction c.counter lvl := by
  unfold Collection.insert Collection.insertCore at h
  rcases hdim : c.dimension with _ | dim
  · rw [hdim] at h
    simp only [Collection.insertGo, Collection.graphIdx] at h
    simp only [Except.ok.injEq, Prod.mk.injEq] at h
    rw [← h.2]
    exact ⟨rfl, rfl, _, _, _, rfl⟩
  · rw [hdim] at h
    simp only at h
    by_cases hlen2 : r.vector.length ≠ dim
    · rw [if_pos hlen2] at h
      simp at h
    · rw [if_neg hlen2] at h
      simp only [Collection.insertGo, Collection.graphIdx] at h
      simp only [Except.ok.injEq, Prod.mk.injEq] at h
      rw [← h.2]
      exact ⟨rfl, rfl, _, _, _, rfl⟩

/-- The collection invariant maintained along batch inserts into a fresh
collection: the record keys are exactly 0..counter-1 in insertion order, the
graph invariant holds over them, no relevancy cutoff is set, and the
construction beam width is positive. -/
def CInv (c : Collection) : Prop :=
  c.records.map Prod.fst = List.range c.counter
  ∧ GI c.graph (c.records.map Prod.fst)
  ∧ c.relevancy = none
  ∧ 1 ≤ c.config.ef_construction

theorem CInv_empty (cfg : Config) (hefc : 1 ≤ cfg.ef_construction) :
    CInv (Collection.emptyCollection cfg) :=
  ⟨rfl, GI_emptyGraph, rfl, hefc⟩

theorem CInv_insert (c : Collection) (r : Record) (v : VectorID) (c' : Collection)
    (h : c.insert r = .ok (v, c')) (hI : CInv c) (hc4 : c.counter ≤ 4) : CInv c' := by
  obtain ⟨hkeys, hGI, hrel, hefc⟩ := hI
  obtain ⟨hcfg, hrel', ⟨fd, dv, lvl, hgr⟩⟩ := insert_ok_parts c r v c' h
  obtain ⟨hvid, hcnt, hrecs⟩ := insertCore_ok_state _ c r v c' h
  have hkeys' : c'.records.map Prod.fst = List.range c'.counter := by
    rw [hrecs, hcnt, List.map_append, hkeys, List.range_succ]
    rfl
  refine ⟨hkeys', ?_, by rw [hrel', hrel], by rw [hcfg]; exact hefc⟩
  rw [hkeys', hcnt, List.range_succ, hgr]
  have hgi2 := GI_insert c.graph (List.range c.counter) fd dv c.config.ef_construction
    c.counter lvl (hkeys ▸ hGI) (List.nodup_range c.counter)
    (by rw [List.length_range]; exact hc4) (by simp) hefc
  exact hgi2

theorem CInv_insertMany (rs : List Record) (c : Collection) (c' : Collection)
    (h : c.insertMany rs = .ok c') (hI : CInv c)
    (hbound : c.counter + rs.length ≤ 5) : CInv c' ∧ c'.config = c.config := by
  induction rs generalizing c with
  | nil =>
    simp only [Collection.insertMany, Except.ok.injEq] at h
    rw [← h]
    exact ⟨hI, rfl⟩
  | cons r rest ih =>
    unfold Collection.insertMany at h
    rcases hr : c.insert r with ⟨e, c1⟩ | ⟨v, c1⟩
    · rw [hr] at h
      simp at h
    · rw [hr] at h
      have hc1 := CInv_insert c r v c1 hr hI (by simp at hbound; omega)
      have hcnt := (insertCore_ok_state _ c r v c1 hr).2.1
      obtain ⟨ha, hb⟩ := ih c1 h hc1 (by simp at hbound ⊢; omega)
      exact ⟨ha, hb.trans (insert_ok_parts c r v c1 hr).1⟩

theorem search_eq_trueSearch_of_CInv (c : Collection) (q : Vec) (k : Nat)
    (hI : CInv c)
    (hef : c.records.length ≤ max c.config.ef_search k) :
    c.search q k = c.trueSearch q k := by
  obtain ⟨hkeys, hGI, hrel, _⟩ := hI
  have hsearch : c.search q k = c.rawSearch q k := by
    unfold Collection.search
    rw [hrel]
  rw [hsearch]
  rcases hent : c.graph.entry with _ | e0
  · have hGIn : c.graph.layers = [] ∧ c.records.map Prod.fst = [] := by
      unfold GI at hGI
      rw [hent] at hGI
      exact hGI
    have hrecnil : c.records = [] := List.map_eq_nil.1 hGIn.2
    unfold Collection.rawSearch Collection.trueSearch
    rw [hent, hrecnil]
    simp [List.insertionSort]
  · have hGIs := hGI
    unfold GI at hGIs
    rw [hent] at hGIs
    obtain ⟨he0, hlne, hok, hNsub, hsym, hreach⟩ := hGIs
    have hNnd : (c.records.map Prod.fst).Nodup := by
      rw [hkeys]
      exact List.nodup_range c.counter
    have hL0mem : c.graph.layers.getD 0 default ∈ c.graph.layers := by
      apply getD_mem_of_lt
      rcases hl : c.graph.layers with _ | ⟨a, b⟩
      · exact absurd hl hlne
      · simp
    have hn : ∀ i j, j ∈ (c.graph.layers.getD 0 default).nbrs i →
        j ∈ c.records.map Prod.fst :=
      fun i j hj => ((hok _ hL0mem).1.2 i).2.2 j hj
    have hlayersn : ∀ L ∈ c.graph.layers, ∀ i j, j ∈ L.nbrs i →
        j ∈ c.records.map Prod.fst :=
      fun L hL i j hj => ((hok L hL).1.2 i).2.2 j hj
    have hep1 : greedyDescent (c.fd q) c.graph.layers 0 (c.graph.layers.length - 1) e0
        ∈ c.records.map Prod.fst :=
      greedyDescent_mem _ _ _ _ _ _ hlayersn he0
    have hreach1 : ∀ n ∈ c.records.map Prod.fst,
        (c.graph.layers.getD 0 default).Reach
          (greedyDescent (c.fd q) c.graph.layers 0 (c.graph.layers.length - 1) e0) n := by
      intro n hnm
      refine Layer.Reach.trans _ _ e0 _ ?_ (hreach n hnm)
      exact Layer.Reach.symm _ _ _ hsym (hreach _ hep1)
    have hfuel : (c.records.map Prod.fst).length
        ≤ (c.graph.layers.getD 0 default).adj.length + 1 := by
      have := nodup_subset_length_le (c.records.map Prod.fst)
        (c.graph.layers.getD 0 default).nodes hNnd hNsub
      have hlen2 : (c.graph.layers.getD 0 default).nodes.length
          = (c.graph.layers.getD 0 default).adj.length := by
        unfold Layer.nodes
        rw [List.length_map]
      omega
    have heflen : (c.records.map Prod.fst).length ≤ max c.config.ef_search k := by
      rw [List.length_map]
      exact hef
    have hef1 : 1 ≤ max c.config.ef_search k := by
      have hpos : 0 < (c.records.map Prod.fst).length := by
        rcases hr2 : c.records.map Prod.fst with _ | ⟨a, b⟩
        · rw [hr2] at he0
          exact absurd he0 (List.not_mem_nil e0)
        · simp
      omega
    have hcomp := beamSearch_complete (c.graph.layers.getD 0 default)
      (c.records.map Prod.fst) (c.fd q) (max c.config.ef_search k)
      (greedyDescent (c.fd q) c.graph.layers 0 (c.graph.layers.length - 1) e0)
      hNnd heflen hef1 hn hreach1 hep1 hfuel
    have hsorted := beamSearch_sorted (c.graph.layers.getD 0 default) (c.fd q)
      (max c.config.ef_search k)
      (greedyDescent (c.fd q) c.graph.layers 0 (c.graph.layers.length - 1) e0)
    have hmapeq : (c.records.map fun p => (c.fd q p.1, p.1))
        = (c.records.map Prod.fst).map fun n => (c.fd q n, n) := by
      rw [List.map_map]
      rfl
    have hbeam_eq : (c.graph.layers.getD 0 default).beamSearch (c.fd q)
          (max c.config.ef_search k)
          (greedyDescent (c.fd q) c.graph.layers 0 (c.graph.layers.length - 1) e0)
        = ((c.records.map Prod.fst).map fun n => (c.fd q n, n)).insertionSort rankLE := by
      refine List.eq_of_perm_of_sorted
        (hcomp.trans (List.perm_insertionSort rankLE _).symm) hsorted ?_
      exact List.sorted_insertionSort rankLE _
    unfold Collection.rawSearch Collection.trueSearch
    rw [hent]
    rw [hmapeq]
    rw [← hbeam_eq]
    rfl

/-- Unit basis vectors of dimension 128, used as a concrete small batch for
the ANN/exact parity check. -/
def c4vec (i : Nat) : Vec :=
  (List.range 128).map fun j => if j = i then (1 : ℚ) else 0

def c4recs : List Record :=
  (List.range 5).map fun i => { vector := c4vec i, data := [i] }

def cC4 : Collection :=
  (Collection.fromRecords cfgCos c4recs).toOption.getD
    (Collection.emptyCollection cfgCos)

/-- C4: for every collection built from 5 records of dimension 128 under the
cosine metric and every query q, search(q, 5) and true_search(q, 5) return
the same result lists, hence identical ordered distance sequences. -/
theorem C4_ann_exact_parity (cfg : Config) (rs : List Record) (q : Vec)
    (c : Collection)
    (hcos : cfg.distance = Metric.cosine)
    (hefc : 1 ≤ cfg.ef_construction)
    (hlen : rs.length = 5)
    (hdim : ∀ r ∈ rs, r.vector.length = 128)
    (hbuild : Collection.fromRecords cfg rs = .ok c) :
    c.search q 5 = c.trueSearch q 5
    ∧ (c.search q 5).map SearchResult.distance
      = (c.trueSearch q 5).map SearchResult.distance := by
  have hins : (Collection.emptyCollection cfg).insertMany rs = .ok c := hbuild
  obtain ⟨hI, _⟩ := CInv_insertMany rs (Collection.emptyCollection cfg) c hins
    (CInv_empty cfg hefc) (by simp [Collection.emptyCollection, hlen])
  have hcnt : c.counter = 5 := by
    have := insertMany_counter (Collection.emptyCollection cfg) rs c hins
    simpa [Collection.emptyCollection, hlen] using this
  have hreclen : c.records.length = 5 := by
    have hmap := congrArg List.length hI.1
    rw [List.length_map, List.length_range, hcnt] at hmap
    exact hmap
  have heq := search_eq_trueSearch_of_CInv c q 5 hI
    (by rw [hreclen]; exact le_max_right _ _)
  exact ⟨heq, by rw [heq]⟩

set_option maxRecDepth 100000 in
set_option maxHeartbeats 2000000 in
theorem C4_ann_exact_parity_witness :
    cfgCos.distance = Metric.cosine
    ∧ 1 ≤ cfgCos.ef_construction
    ∧ c4recs.length = 5
    ∧ (∀ r ∈ c4recs, r.vector.length = 128)
    ∧ Collection.fromRecords cfgCos c4recs = .ok cC4
    ∧ cC4.search (c4vec 2) 5 = cC4.trueSearch (c4vec 2) 5
    ∧ (cC4.search (c4vec 2) 5).map SearchResult.distance
      = (cC4.trueSearch (c4vec 2) 5).map SearchResult.distance := by
  have hb : Collection.fromRecords cfgCos c4recs = .ok cC4 := by
    with_unfolding_all rfl
  have h := C4_ann_exact_parity cfgCos c4recs (c4vec 2) cC4 rfl (by decide)
    (by decide) (by decide) hb
  exact ⟨rfl, by decide, by decide, by decide, hb, h.1, h.2⟩

end Oasys
